/-
Formal model of the hybrid retrieval engine of the mvp-rag-ai repository.

Each Lean definition below is a shallow embedding of one Python function of
the repository, translated statement by statement.  External collaborators
(the rank_bm25 library, the ChromaDB server, the Redis client, the pymorphy3
lemmatizer, the cross-encoder model, the requests library) enter the model as
explicit parameters: their outputs are inputs of the embedded functions.
Scores are modelled as rationals, access levels as integers.
-/

import Mathlib

namespace RagKb

/-! ## Generic list helpers: Python max / min over a list of rationals -/

/-- Python `max(scores)` for a non-empty list (`0` as the `if scores else 0`
default used by `_rerank_results`). -/
def listMax : List ℚ → ℚ
  | [] => 0
  | x :: xs => xs.foldl max x

/-- Python `min(scores)` for a non-empty list (`0` default). -/
def listMin : List ℚ → ℚ
  | [] => 0
  | x :: xs => xs.foldl min x

theorem init_le_foldl_max (l : List ℚ) : ∀ (x : ℚ), x ≤ l.foldl max x := by
  induction l with
  | nil => intro x; exact le_refl x
  | cons y ys ih => intro x; exact le_trans (le_max_left x y) (ih (max x y))

theorem foldl_min_le_init (l : List ℚ) : ∀ (x : ℚ), l.foldl min x ≤ x := by
  induction l with
  | nil => intro x; exact le_refl x
  | cons y ys ih => intro x; exact le_trans (ih (min x y)) (min_le_left x y)

theorem le_foldl_max (l : List ℚ) : ∀ (x a : ℚ), (a = x ∨ a ∈ l) → a ≤ l.foldl max x := by
  induction l with
  | nil =>
    intro x a h
    rcases h with h | h
    · exact h.le
    · exact absurd h (List.not_mem_nil a)
  | cons y ys ih =>
    intro x a h
    rcases h with h | h
    · exact le_trans (h.le.trans (le_max_left x y)) (init_le_foldl_max ys (max x y))
    · rcases List.mem_cons.mp h with h | h
      · exact le_trans (h.le.trans (le_max_right x y)) (init_le_foldl_max ys (max x y))
      · exact ih (max x y) a (Or.inr h)

theorem foldl_min_le (l : List ℚ) : ∀ (x a : ℚ), (a = x ∨ a ∈ l) → l.foldl min x ≤ a := by
  induction l with
  | nil =>
    intro x a h
    rcases h with h | h
    · exact h.ge
    · exact absurd h (List.not_mem_nil a)
  | cons y ys ih =>
    intro x a h
    rcases h with h | h
    · exact le_trans (foldl_min_le_init ys (min x y)) ((min_le_left x y).trans h.ge)
    · rcases List.mem_cons.mp h with h | h
      · exact le_trans (foldl_min_le_init ys (min x y)) ((min_le_right x y).trans h.ge)
      · exact ih (min x y) a (Or.inr h)

theorem mem_le_listMax {a : ℚ} {l : List ℚ} (h : a ∈ l) : a ≤ listMax l := by
  cases l with
  | nil => cases h
  | cons x xs =>
    rcases List.mem_cons.mp h with h | h
    · exact le_foldl_max xs x a (Or.inl h)
    · exact le_foldl_max xs x a (Or.inr h)

theorem listMin_le_mem {a : ℚ} {l : List ℚ} (h : a ∈ l) : listMin l ≤ a := by
  cases l with
  | nil => cases h
  | cons x xs =>
    rcases List.mem_cons.mp h with h | h
    · exact foldl_min_le xs x a (Or.inl h)
    · exact foldl_min_le xs x a (Or.inr h)

theorem foldl_max_mem (l : List ℚ) : ∀ x : ℚ, l.foldl max x = x ∨ l.foldl max x ∈ l := by
  induction l with
  | nil => intro x; exact Or.inl rfl
  | cons y ys ih =>
    intro x
    rcases ih (max x y) with h | h
    · rcases max_cases x y with ⟨he, _⟩ | ⟨he, _⟩
      · exact Or.inl (h.trans he)
      · exact Or.inr (List.mem_cons.mpr (Or.inl (h.trans he)))
    · exact Or.inr (List.mem_cons.mpr (Or.inr h))

theorem listMax_mem {l : List ℚ} (h : l ≠ []) : listMax l ∈ l := by
  cases l with
  | nil => exact absurd rfl h
  | cons x xs =>
    rcases foldl_max_mem xs x with h2 | h2
    · exact List.mem_cons.mpr (Or.inl h2)
    · exact List.mem_cons.mpr (Or.inr h2)

theorem foldl_min_mem (l : List ℚ) : ∀ x : ℚ, l.foldl min x = x ∨ l.foldl min x ∈ l := by
  induction l with
  | nil => intro x; exact Or.inl rfl
  | cons y ys ih =>
    intro x
    rcases ih (min x y) with h | h
    · rcases min_cases x y with ⟨he, _⟩ | ⟨he, _⟩
      · exact Or.inl (h.trans he)
      · exact Or.inr (List.mem_cons.mpr (Or.inl (h.trans he)))
    · exact Or.inr (List.mem_cons.mpr (Or.inr h))

theorem listMin_mem {l : List ℚ} (h : l ≠ []) : listMin l ∈ l := by
  cases l with
  | nil => exact absurd rfl h
  | cons x xs =>
    rcases foldl_min_mem xs x with h2 | h2
    · exact List.mem_cons.mpr (Or.inl h2)
    · exact List.mem_cons.mpr (Or.inr h2)

/-! ## Stable descending sort

Python `list.sort(key=..., reverse=True)` and `sorted(..., reverse=True)` are
stable descending sorts; any stable descending sort computes the same list, so
we model them with insertion sort ordered by `descBy`. -/

/-- `a` may be placed before `b` in a descending sort ordered by `key`. -/
def descBy {α : Type} (key : α → ℚ) (a b : α) : Prop := key b ≤ key a

instance {α : Type} (key : α → ℚ) : DecidableRel (descBy key) :=
  fun a b => inferInstanceAs (Decidable (key b ≤ key a))

/-- Stable descending sort by a rational key. -/
def sortDescBy {α : Type} (key : α → ℚ) (l : List α) : List α :=
  l.insertionSort (descBy key)

theorem mem_sortDescBy {α : Type} {key : α → ℚ} {l : List α} {x : α} :
    x ∈ sortDescBy key l ↔ x ∈ l :=
  List.mem_insertionSort (descBy key)

theorem sortDescBy_perm {α : Type} (key : α → ℚ) (l : List α) :
    List.Perm (sortDescBy key l) l :=
  List.perm_insertionSort (descBy key) l

theorem sortDescBy_sorted {α : Type} (key : α → ℚ) (l : List α) :
    List.Sorted (descBy key) (sortDescBy key l) := by
  haveI : IsTotal α (descBy key) := ⟨fun a b => le_total (key b) (key a)⟩
  haveI : IsTrans α (descBy key) := ⟨fun _ _ _ hab hbc => le_trans hbc hab⟩
  exact List.sorted_insertionSort (descBy key) l

theorem sortDescBy_of_sorted {α : Type} {key : α → ℚ} {l : List α}
    (h : List.Sorted (descBy key) l) : sortDescBy key l = l :=
  List.Sorted.insertionSort_eq h

/-! ## Data model

Chunk metadata is a Python dict; the fields relevant to the retrieval engine
are modelled as optional fields (`metadata.get(key, default)` becomes
`Option.getD`). -/

structure Meta where
  docId : Option String := none
  chunkIndex : Option Nat := none
  accessLevel : Option Int := none
  docTitle : Option String := none
deriving DecidableEq

/-- A chunk as held by the vector store / BM25 corpus: text plus metadata. -/
structure Chunk where
  content : String
  metadata : Meta
deriving DecidableEq

/-- A search-result record of `search_service.py`.  The Python code passes
dicts that accumulate keys (`score`, `rrf_score`, `rerank_score`, ...); we use
one record with all fields, defaulting to `0`. -/
structure SearchResult where
  id : String
  content : String
  metadata : Meta
  score : ℚ := 0
  rtype : String := ""
  rank : Nat := 0
  rrfScore : ℚ := 0
  rerankScore : ℚ := 0
  finalRank : Nat := 0
deriving DecidableEq

/-! ## Cache store (`worker/services/cache_service.py`)

Every method wraps its Redis interaction in `try/except`; the Redis round
trip (and any unmarshalling of its payload) is the external part, modelled as
an `Except` value fed to the embedded method.  `Except.error` covers every
exception the `except` clause catches. -/

/-- A deserialized search-cache entry; `fromCache` is the flag the service
rewrites on read, `payload` stands for all other stored keys. -/
structure CacheEntry where
  fromCache : Bool
  payload : String
deriving DecidableEq

/-- `CacheService.get_cached_search_results`: Redis `get` plus `json.loads`
(result `resp`); on a hit the entry is returned with `from_cache = True`;
a miss gives `None`; any exception gives `None`. -/
def get_cached_search_results (resp : Except String (Option CacheEntry)) :
    Option CacheEntry :=
  match resp with
  | .error _ => none
  | .ok none => none
  | .ok (some e) => some { e with fromCache := true }

/-- `CacheService.cache_search_results`: Redis `setex` (result `resp`);
returns the setex result, `False` on any exception. -/
def cache_search_results (resp : Except String Bool) : Bool :=
  match resp with
  | .error _ => false
  | .ok b => b

/-- `CacheService.invalidate_search_cache`: Redis `keys` then `delete`;
returns the deleted count, `0` when no key matches, `0` on any exception. -/
def invalidate_search_cache (keysResp : Except String (List String))
    (delResp : Except String Nat) : Nat :=
  match keysResp with
  | .error _ => 0
  | .ok [] => 0
  | .ok (_ :: _) =>
    match delResp with
    | .error _ => 0
    | .ok n => n

/-- `CacheService.get_cached_bm25_index`: Redis `get` plus `pickle.loads`
(result `resp`, the payload abstracted as a string); `None` on miss or on any
exception. -/
def get_cached_bm25_index (resp : Except String (Option String)) :
    Option String :=
  match resp with
  | .error _ => none
  | .ok d => d

/-- `CacheService.cache_bm25_index`: pickle plus Redis `setex` (result
`resp`); `False` on any exception. -/
def cache_bm25_index (resp : Except String Bool) : Bool :=
  match resp with
  | .error _ => false
  | .ok b => b

/-- `CacheService.invalidate_bm25_cache`: for a concrete level one `delete`;
for `None` a `keys` scan then `delete`; `0` on any exception. -/
def invalidate_bm25_cache (level : Option Int)
    (keysResp : Except String (List String)) (delResp : Except String Nat) :
    Nat :=
  match level with
  | some _ =>
    match delResp with
    | .error _ => 0
    | .ok n => n
  | none =>
    match keysResp with
    | .error _ => 0
    | .ok [] => 0
    | .ok (_ :: _) =>
      match delResp with
      | .error _ => 0
      | .ok n => n

/-! ## Local reranking client (`worker/services/local_reranking_service.py`) -/

/-- One item of the reranking response: original index, score, document. -/
structure RerankOut where
  index : Nat
  score : ℚ
  document : String
deriving DecidableEq

/-- The list comprehension of `LocalRerankingService._fallback_results`:
`{"index": i, "score": 0.5, "document": doc} for i, doc in
enumerate(documents[:top_k])`. -/
def fallbackLoop : Nat → List String → List RerankOut
  | _, [] => []
  | i, d :: rest => ⟨i, 1/2, d⟩ :: fallbackLoop (i + 1) rest

/-- `LocalRerankingService._fallback_results`. -/
def fallback_results (documents : List String) (top_k : Nat) : List RerankOut :=
  fallbackLoop 0 (documents.take top_k)

/-- `LocalRerankingService.rerank_results`.  The HTTP round trip is the
external part: `server = some items` models a 200 response with parsed
results, `server = none` models a timeout, a connection error, or a non-200
status (each of which raises inside the `try` and is caught, yielding the
fallback). -/
def local_rerank_results (documents : List String) (top_k : Nat)
    (server : Option (List RerankOut)) : List RerankOut :=
  if documents.isEmpty then []
  else
    match server with
    | some items => items
    | none => fallback_results documents top_k

/-! ## Worker write paths (`worker/tasks.py`)

`process_document` and `delete_document` are straight-line sequences of
service calls; the constant lists below record, in program order, every call
each task makes to a worker service on its successful path, so that
call-occurrence properties (cache invalidation) can be stated. -/

inductive WorkerCall where
  | processFile          -- processor.process_document
  | fetchTitle           -- SELECT title FROM documents
  | createChunks         -- chunking_service.create_chunks
  | extractKeywords      -- keyword_service.extract_keywords (per chunk)
  | embedBatch           -- embedding_service.generate_batch_embeddings
  | saveChroma           -- database_service.save_chunks_to_chromadb
  | savePostgres         -- database_service.save_chunks_to_postgres
  | updateStatus         -- database_service.update_document_status
  | deleteChunks         -- database_service.delete_document_chunks
  | invalidateBM25Cache  -- cache_service.invalidate_bm25_cache
  | invalidateSearchCache -- cache_service.invalidate_search_cache
  | ensureBM25Init       -- search_service._ensure_bm25_initialized
deriving DecidableEq

/-- Service calls of a successful `process_document` run (tasks.py lines
81-242), in program order. -/
def process_document_calls : List WorkerCall :=
  [.processFile, .fetchTitle, .createChunks, .extractKeywords, .embedBatch,
   .saveChroma, .savePostgres, .updateStatus]

/-- Service calls of a successful `delete_document` run (tasks.py lines
322-349). -/
def delete_document_calls : List WorkerCall :=
  [.deleteChunks]

/-- Service calls of `SearchService.reinitialize_bm25` (search_service.py
lines 724-761), the only place in the repository that invalidates the two
caches. -/
def reinitialize_bm25_calls : List WorkerCall :=
  [.invalidateBM25Cache, .invalidateSearchCache, .ensureBM25Init]

/-! ## Reranker server (`local_reranker_server.py`, `rerank_documents`)

The cross-encoder itself is external: `logits` is `model.predict(pairs)`,
aligned with `documents`.  The numpy expression `np.exp(scores_array * 100)`
is irrational; it enters the post-processing only through the amplified
values, so it is modelled by an abstract amplification map `amp` (the claims
hold for every `amp`). -/

structure ServerItem where
  index : Nat
  score : ℚ
  rawLogit : ℚ
  document : String
deriving DecidableEq

/-- The result-building loop: `for i, (raw_score, final_score) in
enumerate(zip(scores_array, final_scores))`, reading `request.documents[i]`. -/
def buildItems : Nat → List ℚ → List ℚ → List String → List ServerItem
  | i, r :: rs, f :: fs, d :: ds => ⟨i, f, r, d⟩ :: buildItems (i + 1) rs fs ds
  | _, _, _, _ => []

/-- `rerank_documents` of the reranker server: amplify, min-max rescale into
`[0,10]` (degenerate case `5.0`), sort descending by score, truncate to
`top_k`.  The `not request.documents` early return gives `[]`. -/
def rerank_documents (amp : ℚ → ℚ) (logits : List ℚ) (documents : List String)
    (top_k : Nat) : List ServerItem :=
  if documents.isEmpty then []
  else
    let amplified := logits.map amp
    let minAmp := listMin amplified
    let maxAmp := listMax amplified
    let finals :=
      if minAmp < maxAmp then amplified.map (fun a => (a - minAmp) / (maxAmp - minAmp) * 10)
      else amplified.map (fun _ => 5)
    (sortDescBy (fun it => it.score) (buildItems 0 logits finals documents)).take top_k

/-! ## Search service (`worker/services/search_service.py`) -/

/-- The ChromaDB `where={"access_level": {"$lte": access_level}}` filter
applied to one metadata record: a chunk passes iff its `access_level` field
is present and `≤ L`. -/
def accessLevelFilter (L : Int) (m : Meta) : Bool :=
  match m.accessLevel with
  | some a => decide (a ≤ L)
  | none => false

/-- `DatabaseService.query_chromadb` (database_service.py lines 211-257): the
external ANN store holds `ann` (chunk, cosine distance) pairs in
nearest-first order; the query returns the `n_results = top_k` nearest among
those passing the `access_level ≤ L` where-filter. -/
def query_chromadb (ann : List (Chunk × ℚ)) (L : Int) (top_k : Nat) :
    List (Chunk × ℚ) :=
  (ann.filter (fun cd => accessLevelFilter L cd.1.metadata)).take top_k

/-- The result-formatting loop of `SearchService._vector_search`:
`enumerate(zip(documents[0], metadatas[0], distances[0]))`, with
`score = 1 - distance` and the id `f"{doc_id}_{chunk_index}"` read from the
metadata with defaults `'unknown'` and `i`. -/
def vectorRows : Nat → List (Chunk × ℚ) → List SearchResult
  | _, [] => []
  | i, (c, dist) :: rest =>
    { id := c.metadata.docId.getD "unknown" ++ "_" ++ toString (c.metadata.chunkIndex.getD i),
      content := c.content, metadata := c.metadata, score := 1 - dist,
      rtype := "vector", rank := i + 1 } :: vectorRows (i + 1) rest

/-- `SearchService._vector_search` (happy path). -/
def vector_search (ann : List (Chunk × ℚ)) (L : Int) (top_k : Nat) :
    List SearchResult :=
  vectorRows 0 (query_chromadb ann L top_k)

/-- The BM25 corpus held by a `SearchService` instance: `self.bm25_docs`,
`self.bm25_metadatas`, `self.bm25_ids` (aligned), with `self.bm25` present. -/
structure BM25Data where
  docs : List String
  metas : List Meta
  ids : List String
deriving DecidableEq

/-- The id-generation loop of `_ensure_bm25_initialized`:
`f"{doc_id}_{chunk_index}"` with defaults `f'unknown_{i}'` and `i`. -/
def bm25IdsOf : Nat → List Meta → List String
  | _, [] => []
  | i, m :: rest =>
    (m.docId.getD ("unknown_" ++ toString i) ++ "_" ++ toString (m.chunkIndex.getD i))
      :: bm25IdsOf (i + 1) rest

/-- The in-process BM25 part of a `SearchService` instance:
`self._bm25_initialized` and `self.bm25`/`bm25_docs`/`bm25_metadatas`/
`bm25_ids` (absent = `None`). -/
structure BM25State where
  initialized : Bool
  bm25 : Option BM25Data
deriving DecidableEq

/-- `SearchService._ensure_bm25_initialized` (search_service.py lines
122-203).  `cache` is `cache_service.get_cached_bm25_index` (keyed by level),
`store` the chunks of the ChromaDB collection.  Note: the early return is
guarded by the instance-wide flag `self._bm25_initialized`, which does not
record the access level the index was built for; on the empty-corpus branch
the flag is left unset and `self.bm25 = None`.  The cache write on the build
branch is a side effect with no bearing on the returned state. -/
def ensure_bm25_initialized (cache : Int → Option BM25Data) (store : List Chunk)
    (L : Int) (s : BM25State) : BM25State :=
  if s.initialized then s
  else
    match cache L with
    | some data => { initialized := true, bm25 := some data }
    | none =>
      let allDocs := store.filter (fun c => accessLevelFilter L c.metadata)
      if allDocs.isEmpty then { s with bm25 := none }
      else
        { initialized := true,
          bm25 := some
            { docs := allDocs.map (·.content),
              metas := allDocs.map (·.metadata),
              ids := bm25IdsOf 0 (allDocs.map (·.metadata)) } }

/-- The candidate loop of `SearchService._bm25_search`: `for i, score in
enumerate(scores): if i < len(self.bm25_metadatas): ... if
metadata.get('access_level', 0) <= access_level: append` with
`rank = len(bm25_results) + 1` at append time.  The four lists walk in step;
`scores`, `docs` and `ids` are aligned with `metas` by construction (all are
built from the same collection read). -/
def bm25Collect (L : Int) : Nat → List ℚ → List Meta → List String → List String →
    List SearchResult
  | _, [], _, _, _ => []
  | _, _ :: _, [], _, _ => []
  | _, _ :: _, _ :: _, [], _ => []
  | _, _ :: _, _ :: _, _ :: _, [] => []
  | n, sc :: scs, m :: ms, d :: ds, cid :: ids =>
    if m.accessLevel.getD 0 ≤ L then
      { id := cid, content := d, metadata := m, score := sc, rtype := "bm25",
        rank := n + 1 } :: bm25Collect L (n + 1) scs ms ds ids
    else bm25Collect L n scs ms ds ids

/-- `SearchService._bm25_search` (search_service.py lines 370-432).  Query
expansion and tokenization feed the external `BM25Okapi.get_scores`, whose
output is `scores` (one score per indexed chunk, corpus order); `self.bm25 is
None` is the `b = none` case. -/
def bm25_search (b : Option BM25Data) (scores : List ℚ) (L : Int) (top_k : Nat) :
    List SearchResult :=
  match b with
  | none => []
  | some data =>
    (sortDescBy (fun r => r.score) (bm25Collect L 0 scores data.metas data.docs data.ids)).take top_k

/-- `rrf_scores.get(doc_id, 0)` on the insertion-ordered dict modelled as an
association list. -/
def dictGetD (d : List (String × ℚ)) (k : String) : ℚ :=
  match d.find? (fun p => p.1 == k) with
  | some p => p.2
  | none => 0

/-- `rrf_scores[doc_id] = v`: Python dict assignment updates in place
(keeping insertion order) or appends a new key. -/
def dictSet (d : List (String × ℚ)) (k : String) (v : ℚ) : List (String × ℚ) :=
  if d.any (fun p => p.1 == k) then d.map (fun p => if p.1 == k then (k, v) else p)
  else d ++ [(k, v)]

/-- `all_docs[doc_id] = result` (overwrite or append). -/
def docsSet (d : List (String × SearchResult)) (k : String) (r : SearchResult) :
    List (String × SearchResult) :=
  if d.any (fun p => p.1 == k) then d.map (fun p => if p.1 == k then (k, r) else p)
  else d ++ [(k, r)]

/-- `if doc_id not in all_docs: all_docs[doc_id] = result`. -/
def docsSetIfAbsent (d : List (String × SearchResult)) (k : String)
    (r : SearchResult) : List (String × SearchResult) :=
  if d.any (fun p => p.1 == k) then d else d ++ [(k, r)]

/-- The vector-leg loop of `_rrf_fusion`: contribution
`vector_weight * (1.0 / (k + rank + 1))` with `k = 60`, and
`all_docs[doc_id] = result`. -/
def rrfVecLoop (vw : ℚ) : Nat → List SearchResult → List (String × ℚ) →
    List (String × SearchResult) → List (String × ℚ) × List (String × SearchResult)
  | _, [], d, docs => (d, docs)
  | rank, r :: rest, d, docs =>
    rrfVecLoop vw (rank + 1) rest
      (dictSet d r.id (dictGetD d r.id + vw * (1 / (60 + (rank : ℚ) + 1))))
      (docsSet docs r.id r)

/-- The BM25-leg loop of `_rrf_fusion`: contribution
`bm25_weight * (1.0 / (k + rank + 1))`, and the record kept only
`if doc_id not in all_docs`. -/
def rrfBmLoop (bw : ℚ) : Nat → List SearchResult → List (String × ℚ) →
    List (String × SearchResult) → List (String × ℚ) × List (String × SearchResult)
  | _, [], d, docs => (d, docs)
  | rank, r :: rest, d, docs =>
    rrfBmLoop bw (rank + 1) rest
      (dictSet d r.id (dictGetD d r.id + bw * (1 / (60 + (rank : ℚ) + 1))))
      (docsSetIfAbsent docs r.id r)

/-- The final loop of `_rrf_fusion`: `for rank, (doc_id, rrf_score) in
enumerate(sorted_docs): if doc_id in all_docs: ...` (the rank counter runs
over `sorted_docs` whether or not the id is found). -/
def rrfRankLoop : Nat → List (String × ℚ) → List (String × SearchResult) →
    List SearchResult
  | _, [], _ => []
  | rank, (k, sc) :: rest, docs =>
    match docs.find? (fun p => p.1 == k) with
    | some p =>
      { p.2 with rrfScore := sc, rtype := "hybrid", rank := rank + 1 }
        :: rrfRankLoop (rank + 1) rest docs
    | none => rrfRankLoop (rank + 1) rest docs

/-- `SearchService._rrf_fusion` (search_service.py lines 438-501). -/
def rrf_fusion (vec bm : List SearchResult) (vw bw : ℚ) : List SearchResult :=
  let s1 := rrfVecLoop vw 0 vec [] []
  let s2 := rrfBmLoop bw 0 bm s1.1 s1.2
  rrfRankLoop 0 (sortDescBy (fun p => p.2) s2.1) s2.2

/-- The matching loop of `_rerank_results`: each reranker item carries the
original index and the score; items with `original_index < len(results)` are
matched back, `final_rank = len(all_reranked_results) + 1` at append time. -/
def matchLoop (results : List SearchResult) : List (Nat × ℚ) → Nat →
    List SearchResult
  | [], _ => []
  | (idx, sc) :: rest, n =>
    match results[idx]? with
    | some r => { r with rerankScore := sc, finalRank := n + 1 } :: matchLoop results rest (n + 1)
    | none => matchLoop results rest n

/-- The adaptive-threshold filter of `_rerank_results` (search_service.py
lines 542-585): empty input returns `[]`; otherwise the threshold table on
`score_range = best - worst` is applied; `best < GENERAL_CHAT_THRESHOLD`
returns `[]`; otherwise the results with `rerank_score >=
HIGH_RELEVANCE_THRESHOLD` are kept (the trailing `if not filtered_results:
return []` returns the empty filter output unchanged). -/
def adaptiveFilter (l : List SearchResult) : List SearchResult :=
  if l.isEmpty then []
  else
    let scores := l.map (fun r => r.rerankScore)
    let best := listMax scores
    let worst := listMin scores
    let srange := best - worst
    let highT := if 2 < srange then best * (8/10)
      else if 1 < srange then best * (7/10)
      else best - 1/10
    let genT := if 2 < srange then best * (4/10)
      else if 1 < srange then best * (3/10)
      else best * (5/10)
    if best < genT then []
    else l.filter (fun r => decide (highT ≤ r.rerankScore))

/-- `SearchService._rerank_results` (happy path): the external reranking
service output is `reranked` (index/score pairs, already truncated to
`top_k` by the service). -/
def rerank_results_svc (results : List SearchResult) (reranked : List (Nat × ℚ)) :
    List SearchResult :=
  if results.isEmpty then [] else adaptiveFilter (matchLoop results reranked 0)

/-- The cache-miss path of `SearchService.hybrid_search` (search_service.py
lines 251-285): vector leg, BM25 leg, RRF fusion, then reranking when the
fused list is non-empty and `rerank_top_k > 0`, else `fused[:rerank_top_k]`.
All external collaborators enter as parameters: `ann` the ANN store
response candidates, `bm25`/`bmScores` the in-process BM25 state and its
`get_scores` output, `rerankOut` the reranking-service response. -/
def hybrid_search_results (ann : List (Chunk × ℚ)) (bm25 : Option BM25Data)
    (bmScores : List ℚ) (rerankOut : List (Nat × ℚ)) (L : Int)
    (top_k rerank_top_k : Nat) (vw bw : ℚ) : List SearchResult :=
  let vec := vector_search ann L top_k
  let bms := bm25_search bm25 bmScores L top_k
  let fused := rrf_fusion vec bms vw bw
  if 0 < fused.length ∧ 0 < rerank_top_k then rerank_results_svc fused rerankOut
  else fused.take rerank_top_k

/-! ## Morphological tokenizer (`SearchService._improved_tokenize`,
search_service.py lines 57-120)

The pymorphy3 lemmatizer is external: `nf tok` models
`self.morph.parse(tok)[0].normal_form`.  The regular expressions of the
source are implemented character by character: `\w` is modelled for the
character classes occurring in this corpus (ASCII alphanumerics, underscore,
and the Russian Cyrillic block), `\b` as a transition between a word and a
non-word character. -/

/-- Python `\w` for the characters this system processes: ASCII letters and
digits, underscore, and Cyrillic letters (U+0400–U+04FF). -/
def isWordCh (c : Char) : Bool :=
  c.isAlphanum || c == '_' || (0x400 ≤ c.toNat && c.toNat ≤ 0x4FF)

/-- Python `str.lower()` for ASCII and Russian Cyrillic (А–Я → а–я, Ё → ё). -/
def pyLowerChar (c : Char) : Char :=
  if 0x410 ≤ c.toNat ∧ c.toNat ≤ 0x42F then Char.ofNat (c.toNat + 0x20)
  else if c.toNat = 0x401 then Char.ofNat 0x451
  else c.toLower

/-- Consume exactly `n` ASCII digits. -/
def takeNDigits : Nat → List Char → Option (List Char)
  | 0, cs => some cs
  | _ + 1, [] => none
  | n + 1, c :: cs => if c.isDigit then takeNDigits n cs else none

/-- `\b` after a word character: the next character is absent or non-word. -/
def boundaryAfter (cs : List Char) : Bool :=
  match cs with
  | [] => true
  | c :: _ => !isWordCh c

/-- Matcher for `\d{4}-\d{2}-\d{2}\b` (the leading `\b` is checked by the
scanner). -/
def matchDateIso (cs : List Char) : Option (List Char) :=
  match takeNDigits 4 cs with
  | some ('-' :: r1) =>
    match takeNDigits 2 r1 with
    | some ('-' :: r2) =>
      match takeNDigits 2 r2 with
      | some r3 => if boundaryAfter r3 then some r3 else none
      | none => none
    | _ => none
  | _ => none

/-- Matcher for `\d{2}\.\d{2}\.\d{4}\b`. -/
def matchDateDot (cs : List Char) : Option (List Char) :=
  match takeNDigits 2 cs with
  | some ('.' :: r1) =>
    match takeNDigits 2 r1 with
    | some ('.' :: r2) =>
      match takeNDigits 4 r2 with
      | some r3 => if boundaryAfter r3 then some r3 else none
      | none => none
    | _ => none
  | _ => none

/-- The negative lookahead `(?!(?:19|20)\d{2}\b)` at a match position. -/
def yearLookahead (cs : List Char) : Bool :=
  match cs with
  | c1 :: c2 :: c3 :: c4 :: rest =>
    ((c1 == '1' && c2 == '9') || (c1 == '2' && c2 == '0')) && c3.isDigit &&
      c4.isDigit && boundaryAfter rest
  | _ => false

/-- Matcher for `(?!(?:19|20)\d{2}\b)\d+\.\d+\b`. -/
def matchDecimal (cs : List Char) : Option (List Char) :=
  if yearLookahead cs then none
  else
    let ds := cs.takeWhile Char.isDigit
    let r1 := cs.dropWhile Char.isDigit
    if ds.isEmpty then none
    else
      match r1 with
      | '.' :: r2 =>
        let ds2 := r2.takeWhile Char.isDigit
        let r3 := r2.dropWhile Char.isDigit
        if ds2.isEmpty then none
        else if boundaryAfter r3 then some r3 else none
      | _ => none

/-- `re.sub` scanning: left to right, non-overlapping, a match is attempted
only at a `\b` position (previous character non-word), replacement text is
not rescanned; fuel bounds the recursion by the input length. -/
def subScan (matchFn : List Char → Option (List Char)) (repl : List Char) :
    Nat → Bool → List Char → List Char
  | 0, _, cs => cs
  | _ + 1, _, [] => []
  | fuel + 1, prevW, c :: cs =>
    if prevW then c :: subScan matchFn repl fuel (isWordCh c) cs
    else
      match matchFn (c :: cs) with
      | some rest => repl ++ subScan matchFn repl fuel true rest
      | none => c :: subScan matchFn repl fuel (isWordCh c) cs

/-- A character of a `[\w-]+` token. -/
def isTokCh (c : Char) : Bool := isWordCh c || c == '-'

/-- `re.findall(r'[\w-]+', text)`: maximal runs of token characters (fuel
bounds the recursion by the input length, as in `subScan`). -/
def findTokens : Nat → List Char → List (List Char)
  | 0, _ => []
  | _ + 1, [] => []
  | fuel + 1, c :: cs =>
    if isTokCh c then
      (c :: cs.takeWhile isTokCh) :: findTokens fuel (cs.dropWhile isTokCh)
    else findTokens fuel cs

/-- The hard-coded `russian_stop_words` set of `_improved_tokenize`
(lemmatized Russian stop words), transcribed verbatim. -/
def russianStopWords : List String :=
  ["и", "в", "во", "не", "что", "он", "на", "я", "с", "со", "как", "а", "то",
   "все", "она", "так", "его", "но", "да", "ты", "к", "у", "же", "вы", "за",
   "бы", "по", "только", "её", "мне", "быть", "вот", "от", "меня", "ещё",
   "нет", "о", "из", "ему", "теперь", "когда", "даже", "ну", "вдруг", "ли",
   "если", "уже", "или", "ни", "был", "него", "до", "вас", "нибудь", "опять",
   "уж", "вам", "ведь", "там", "потом", "себя", "ничто", "ей", "мочь", "они",
   "тут", "где", "есть", "надо", "ней", "для", "мы", "тебя", "их", "чем",
   "сам", "чтобы", "без", "будто", "чего", "раз", "тоже", "под", "будет",
   "ж", "тогда", "кто", "этот", "тот", "потому", "какой", "совсем", "здесь",
   "один", "почти", "мой", "тем", "сейчас", "куда", "зачем", "весь",
   "никогда", "можно", "при", "наконец", "два", "об", "другой", "хоть",
   "после", "над", "большой", "через", "этот", "наш", "про", "весь", "какой",
   "много", "разве", "три", "мой", "впрочем", "хороший", "свой", "перед",
   "иногда", "лучше", "чуть", "нельзя", "такой", "более", "всегда",
   "конечно", "между"]

/-- Python `str.isdigit()` (ASCII digits suffice here). -/
def pyIsdigit (s : String) : Bool := !s.isEmpty && s.data.all Char.isDigit

/-- `re.match(r'^\d{4}$', token)`. -/
def isYearToken (s : String) : Bool := s.length == 4 && s.data.all Char.isDigit

/-- The per-part branch of the hyphenated-token path: parts of length `≥ 2`
are lemmatized and kept unless the lemma is a stop word or all digits. -/
def hyphenParts (nf : String → String) : List String → List String
  | [] => []
  | p :: ps =>
    if 2 ≤ p.length then
      let lm := nf p
      if ¬ lm ∈ russianStopWords ∧ ¬ pyIsdigit lm then lm :: hyphenParts nf ps
      else hyphenParts nf ps
    else hyphenParts nf ps

/-- The token loop of `_improved_tokenize`: tokens shorter than 2 are
dropped; hyphenated tokens longer than 3 are split and each part
lemmatized; otherwise the lemma is kept unless it is a stop word or all
digits, with `DATE`, `NUMBER` and `^\d{4}$` tokens appended verbatim. -/
def tokenLoop (nf : String → String) : List String → List String
  | [] => []
  | t :: ts =>
    if t.length < 2 then tokenLoop nf ts
    else if t.data.contains '-' && decide (3 < t.length) then
      hyphenParts nf (t.splitOn "-") ++ tokenLoop nf ts
    else
      let lm := nf t
      if ¬ lm ∈ russianStopWords ∧ ¬ pyIsdigit lm then
        (if t = "DATE" ∨ t = "NUMBER" ∨ isYearToken t then t else lm)
          :: tokenLoop nf ts
      else tokenLoop nf ts

/-- `SearchService._improved_tokenize` (the `try` path): lowercase, the three
`re.sub` passes in source order, `re.findall(r'[\w-]+')`, then the token
loop. -/
def improved_tokenize (nf : String → String) (text : String) : List String :=
  let t1 := (text.data.map pyLowerChar)
  let t2 := subScan matchDateIso "DATE".data (t1.length + 1) false t1
  let t3 := subScan matchDateDot "DATE".data (t2.length + 1) false t2
  let t4 := subScan matchDecimal "NUMBER".data (t3.length + 1) false t3
  tokenLoop nf ((findTokens (t4.length + 1) t4).map (fun cs => String.mk cs))

/-! ## ChromaDB connection pool (`worker/services/connection_pool.py`)

Handles are identifiers with a static liveness predicate `live` (a handle's
heartbeat succeeds iff `live` holds); `_create_client` heartbeats the fresh
handle before returning it, so a successful creation yields a live handle.
The pool state mirrors `available_connections` (FIFO queue),
`active_connections` (set, as a duplicate-free list) and
`connection_count`. -/

structure PoolState where
  available : List Nat
  active : List Nat
  count : Nat
deriving DecidableEq

/-- Python `set.add`. -/
def setAdd (l : List Nat) (c : Nat) : List Nat := if c ∈ l then l else c :: l

/-- Python `set.discard` / `set.remove` for a present element. -/
def setDiscard (l : List Nat) (c : Nat) : List Nat := l.erase c

/-- The last stage of `get_client`: wait on the queue (entered only when the
caller still has budget, `wait = true`); a dead handle here is discarded
without another retry.  The heartbeat outcome `live c` is matched as a
boolean: `true` is the `try` path, `false` the `except`. -/
def getClientWait (live : Nat → Bool) (wait : Bool) (s : PoolState) :
    Option Nat × PoolState :=
  match wait, s.available with
  | true, c :: rest =>
    match live c with
    | true => (some c, ⟨rest, setAdd s.active c, s.count⟩)
    | false => (none, ⟨rest, setDiscard (setAdd s.active c) c, s.count - 1⟩)
  | _, _ => (none, s)

/-- The middle stage of `get_client`: `if self.connection_count <
self.max_connections`, synthesize a new handle (`create` is the
`_create_client` result: `none` on failure). -/
def getClientCreate (live : Nat → Bool) (maxConn : Nat) (create : Option Nat)
    (wait : Bool) (s : PoolState) : Option Nat × PoolState :=
  match decide (s.count < maxConn), create with
  | true, some h => (some h, ⟨s.available, setAdd s.active h, s.count + 1⟩)
  | true, none => getClientWait live wait s
  | false, _ => getClientWait live wait s

/-- `ChromaDBPool.get_client` (connection_pool.py lines 108-210): try the
queue and heartbeat the handle (a dead one is dropped and the count
decremented), then try to create, then wait once more. -/
def get_client (live : Nat → Bool) (maxConn : Nat) (create : Option Nat)
    (wait : Bool) (s : PoolState) : Option Nat × PoolState :=
  match s.available with
  | c :: rest =>
    match live c with
    | true => (some c, ⟨rest, setAdd s.active c, s.count⟩)
    | false =>
      getClientCreate live maxConn create wait
        ⟨rest, setDiscard (setAdd s.active c) c, s.count - 1⟩
  | [] => getClientCreate live maxConn create wait s

/-- `ChromaDBPool.return_client` (connection_pool.py lines 212-245): only
handles in the active set are processed; a live handle is re-queued when the
queue (maxsize `max_connections`) has room, else closed; a dead handle is
closed. -/
def return_client (live : Nat → Bool) (maxConn : Nat) (c : Nat) (s : PoolState) :
    PoolState :=
  match decide (c ∈ s.active), live c, decide (s.available.length < maxConn) with
  | true, true, true => ⟨s.available ++ [c], s.active.erase c, s.count⟩
  | true, true, false => ⟨s.available, s.active.erase c, s.count - 1⟩
  | true, false, _ => ⟨s.available, s.active.erase c, s.count - 1⟩
  | false, _, _ => s

/-- One pool operation with its environment choices. -/
inductive PoolOp where
  | get (create : Option Nat) (wait : Bool)
  | ret (c : Nat)
deriving DecidableEq

/-- State transition of one operation. -/
def poolStep (live : Nat → Bool) (maxConn : Nat) (s : PoolState) : PoolOp → PoolState
  | .get create wait => (get_client live maxConn create wait s).2
  | .ret c => return_client live maxConn c s

/-- Run a sequence of pool operations. -/
def poolRun (live : Nat → Bool) (maxConn : Nat) (s : PoolState)
    (ops : List PoolOp) : PoolState :=
  ops.foldl (poolStep live maxConn) s

/-- A successful `_create_client` yields a live handle (it heartbeats the
fresh client before returning it). -/
def createLive (live : Nat → Bool) : Option Nat → Prop
  | some h => live h = true
  | none => True

/-- A successful `_create_client` yields a handle new to the pool. -/
def createFresh (s : PoolState) : Option Nat → Prop
  | some h => h ∉ s.available ∧ h ∉ s.active
  | none => True

/-- Environment well-formedness of one operation. -/
def wfOp (live : Nat → Bool) (s : PoolState) : PoolOp → Prop
  | .get create _ => createLive live create ∧ createFresh s create
  | .ret _ => True

/-- Environment well-formedness along a run. -/
def wfOps (live : Nat → Bool) (maxConn : Nat) (s : PoolState) : List PoolOp → Prop
  | [] => True
  | op :: rest => wfOp live s op ∧ wfOps live maxConn (poolStep live maxConn s op) rest

instance createLiveDec (live : Nat → Bool) :
    (c : Option Nat) → Decidable (createLive live c)
  | some h => inferInstanceAs (Decidable (live h = true))
  | none => isTrue trivial

instance createFreshDec (s : PoolState) :
    (c : Option Nat) → Decidable (createFresh s c)
  | some h => inferInstanceAs (Decidable (h ∉ s.available ∧ h ∉ s.active))
  | none => isTrue trivial

instance wfOpDec (live : Nat → Bool) (s : PoolState) :
    (op : PoolOp) → Decidable (wfOp live s op)
  | .get create _ =>
    inferInstanceAs (Decidable (createLive live create ∧ createFresh s create))
  | .ret _ => isTrue trivial

instance wfOpsDec (live : Nat → Bool) (maxConn : Nat) :
    (s : PoolState) → (ops : List PoolOp) → Decidable (wfOps live maxConn s ops)
  | _, [] => isTrue trivial
  | s, op :: rest =>
    haveI := wfOpsDec live maxConn (poolStep live maxConn s op) rest
    inferInstanceAs (Decidable (wfOp live s op ∧ wfOps live maxConn (poolStep live maxConn s op) rest))

/-- The pool invariant: the queue and the active set partition the handles,
their sizes add up to `connection_count`, and the pool never exceeds
`max_connections`. -/
def PoolInv (maxConn : Nat) (s : PoolState) : Prop :=
  (s.available ++ s.active).Nodup ∧
  s.available.length + s.active.length = s.count ∧ s.count ≤ maxConn

instance (maxConn : Nat) (s : PoolState) : Decidable (PoolInv maxConn s) :=
  inferInstanceAs (Decidable (_ ∧ _ ∧ _))

/-! # Theorems -/

/-! ## C8 — cache operations degrade to miss / no-op on store errors -/

/-- C8: every cache-store operation degrades when the underlying key-value
store errors out: reads of the search-result cache and of the BM25-index
cache return `None`, writes return `False`, and invalidations return `0`
(whether the `keys` scan or the `delete` fails); no operation propagates the
store error (each embedded operation is total, the `Except.error` case is
mapped to the degraded value). -/
theorem cache_ops_degrade_on_store_error (e : String) :
    get_cached_search_results (.error e) = none ∧
    cache_search_results (.error e) = false ∧
    (∀ delResp, invalidate_search_cache (.error e) delResp = 0) ∧
    (∀ keys, invalidate_search_cache (.ok keys) (.error e) = 0) ∧
    get_cached_bm25_index (.error e) = none ∧
    cache_bm25_index (.error e) = false ∧
    (∀ level keysResp, invalidate_bm25_cache level keysResp (.error e) = 0) ∧
    (∀ delResp, invalidate_bm25_cache none (.error e) delResp = 0) := by
  refine ⟨rfl, rfl, fun _ => rfl, fun keys => ?_, rfl, rfl, fun level keysResp => ?_, fun _ => rfl⟩
  · cases keys <;> rfl
  · cases level with
    | none => cases keysResp with
      | error _ => rfl
      | ok keys => cases keys <;> rfl
    | some _ => rfl

/-! ## C10 — reranking-client fallback on server failure -/

theorem fallbackLoop_map_document (l : List String) :
    ∀ n, (fallbackLoop n l).map (fun r => r.document) = l := by
  induction l with
  | nil => intro n; rfl
  | cons d rest ih => intro n; simp [fallbackLoop, ih]

theorem fallbackLoop_score {l : List String} :
    ∀ n, ∀ r ∈ fallbackLoop n l, r.score = 1/2 := by
  induction l with
  | nil => intro n r hr; exact absurd hr (List.not_mem_nil r)
  | cons d rest ih =>
    intro n r hr
    rcases List.mem_cons.mp hr with h | h
    · rw [h]
    · exact ih (n + 1) r h

/-- C10: for a non-empty document list, a reranking-server failure (timeout,
connection error, or non-200 status, all modelled by `server = none`) does
not raise: the client returns the first `min(top_k, len(documents))`
documents in their original input order, each with score exactly `0.5`. -/
theorem local_rerank_fallback (documents : List String) (top_k : Nat)
    (h : documents ≠ []) :
    (local_rerank_results documents top_k none).map (fun r => r.document) =
      documents.take top_k ∧
    (local_rerank_results documents top_k none).length =
      min top_k documents.length ∧
    ∀ r ∈ local_rerank_results documents top_k none, r.score = 1/2 := by
  have hne : documents.isEmpty = false := by
    cases documents with
    | nil => exact absurd rfl h
    | cons d rest => rfl
  have hres : local_rerank_results documents top_k none =
      fallbackLoop 0 (documents.take top_k) := by
    simp [local_rerank_results, hne, fallback_results]
  refine ⟨?_, ?_, ?_⟩
  · rw [hres, fallbackLoop_map_document]
  · have hlen : (fallbackLoop 0 (documents.take top_k)).length =
        (documents.take top_k).length := by
      have := congrArg List.length (fallbackLoop_map_document (documents.take top_k) 0)
      simpa using this
    rw [hres, hlen, List.length_take]
  · intro r hr
    rw [hres] at hr
    exact fallbackLoop_score 0 r hr

/-- C10 witness: the theorem at `documents = ["a","b","c"]`, `top_k = 2`. -/
theorem local_rerank_fallback_witness :
    (local_rerank_results ["a","b","c"] 2 none).map (fun r => r.document) =
      (["a","b","c"] : List String).take 2 ∧
    (local_rerank_results ["a","b","c"] 2 none).length =
      min 2 (["a","b","c"] : List String).length ∧
    ∀ r ∈ local_rerank_results ["a","b","c"] 2 none, r.score = 1/2 :=
  local_rerank_fallback ["a","b","c"] 2 (by decide)

/-! ## C3 — write paths and cache invalidation -/

/-- C3: contrary to the specification, the successful paths of the write
tasks perform no cache invalidation at all: neither `process_document` nor
`delete_document` ever calls `invalidate_bm25_cache` or
`invalidate_search_cache`; the only invalidation site in the repository is
`SearchService.reinitialize_bm25` (which does call both together), and no
write path calls it. -/
theorem write_paths_never_invalidate :
    WorkerCall.invalidateBM25Cache ∉ process_document_calls ∧
    WorkerCall.invalidateSearchCache ∉ process_document_calls ∧
    WorkerCall.invalidateBM25Cache ∉ delete_document_calls ∧
    WorkerCall.invalidateSearchCache ∉ delete_document_calls ∧
    WorkerCall.invalidateBM25Cache ∈ reinitialize_bm25_calls ∧
    WorkerCall.invalidateSearchCache ∈ reinitialize_bm25_calls := by
  decide

/-! ## C5 — standalone 4-digit years are dropped, not preserved

pymorphy3 parses a digit-only token as `NUMB` with `normal_form` equal to
the token itself; the hypothesis `nf "1995" = "1995"` records exactly this.
The `not lemma.isdigit()` guard then rejects the token before the
year-preserving branch (`re.match(r'^\d{4}$', token)`) can run, so that
branch is dead code for digit-only tokens. -/

/-- C5: the tokenizer drops a standalone 4-digit year: for every lemmatizer
that (like pymorphy3) maps the digit token `"1995"` to itself,
`_improved_tokenize("1995")` is the empty token list, although the
specification (and the source's own comments) require the year to be
preserved verbatim. -/
theorem year_token_dropped (nf : String → String) (h : nf "1995" = "1995") :
    improved_tokenize nf "1995" = [] := by
  have h1 : improved_tokenize nf "1995" = tokenLoop nf ["1995"] := rfl
  have h2 : tokenLoop nf ["1995"] =
      (if ¬ nf "1995" ∈ russianStopWords ∧ ¬ pyIsdigit (nf "1995") then
        (if ("1995" : String) = "DATE" ∨ ("1995" : String) = "NUMBER" ∨
            isYearToken "1995" then ("1995" : String) else nf "1995")
          :: tokenLoop nf []
      else tokenLoop nf []) := rfl
  have h3 : tokenLoop nf ([] : List String) = [] := rfl
  rw [h1, h2, h3, h]
  decide

/-- C5 witness: the theorem applied at the identity lemmatizer. -/
theorem year_token_dropped_witness :
    (fun s : String => s) "1995" = "1995" ∧
    improved_tokenize (fun s : String => s) "1995" = [] :=
  ⟨rfl, year_token_dropped (fun s : String => s) rfl⟩

/-! ## C7 — reranker-server post-processing -/

theorem mem_buildItems_score (rs : List ℚ) :
    ∀ (n : Nat) (fs : List ℚ) (ds : List String) (it : ServerItem),
      it ∈ buildItems n rs fs ds → it.score ∈ fs := by
  induction rs with
  | nil =>
    intro n fs ds it h
    simp [buildItems] at h
  | cons r rs2 ih =>
    intro n fs ds it h
    cases fs with
    | nil => simp [buildItems] at h
    | cons f fs2 =>
      cases ds with
      | nil => simp [buildItems] at h
      | cons d ds2 =>
        rcases List.mem_cons.mp h with h | h
        · rw [h]; exact List.mem_cons_self f fs2
        · exact List.mem_cons.mpr (Or.inr (ih (n + 1) fs2 ds2 it h))

/-- C7: for every reranker input, the post-processed output is sorted
descending by normalized score, has at most `top_k` items, every normalized
score lies in `[0, 10]`, and when all amplified scores are equal every
returned score is exactly `5.0`.  The amplification map `amp` stands for
`a = exp(100 * r)`; the properties hold for every such map. -/
theorem rerank_documents_spec (amp : ℚ → ℚ) (logits : List ℚ)
    (documents : List String) (top_k : Nat) :
    List.Sorted (descBy (fun it => it.score))
        (rerank_documents amp logits documents top_k) ∧
    (rerank_documents amp logits documents top_k).length ≤ top_k ∧
    (∀ it ∈ rerank_documents amp logits documents top_k,
        0 ≤ it.score ∧ it.score ≤ 10) ∧
    ((∀ a ∈ logits.map amp, ∀ b ∈ logits.map amp, a = b) →
      ∀ it ∈ rerank_documents amp logits documents top_k, it.score = 5) := by
  by_cases hd : documents.isEmpty
  · simp only [rerank_documents, hd, if_true]
    exact ⟨List.sorted_nil, by simp, by simp, fun _ it h => absurd h (List.not_mem_nil it)⟩
  · simp only [rerank_documents, hd, if_false]
    set amplified := logits.map amp with hamp
    set minAmp := listMin amplified with hmin
    set maxAmp := listMax amplified with hmax
    set finals :=
      (if minAmp < maxAmp then amplified.map (fun a => (a - minAmp) / (maxAmp - minAmp) * 10)
       else amplified.map (fun _ => (5 : ℚ))) with hfin
    set sorted := sortDescBy (fun it => it.score) (buildItems 0 logits finals documents)
      with hsorted
    have hscore : ∀ it ∈ sorted.take top_k, it.score ∈ finals := by
      intro it hit
      have h1 : it ∈ sorted := List.mem_of_mem_take hit
      have h2 : it ∈ buildItems 0 logits finals documents := mem_sortDescBy.mp h1
      exact mem_buildItems_score logits 0 finals documents it h2
    have hs : List.Sorted (descBy (fun it : ServerItem => it.score)) sorted := by
      rw [hsorted]
      exact sortDescBy_sorted (fun it => it.score) (buildItems 0 logits finals documents)
    refine ⟨?_, ?_, ?_, ?_⟩
    · exact List.Pairwise.sublist (List.take_sublist top_k sorted) hs
    · exact List.length_take_le top_k sorted
    · intro it hit
      have hf := hscore it hit
      rw [hfin] at hf
      by_cases hlt : minAmp < maxAmp
      · rw [if_pos hlt] at hf
        rcases List.mem_map.mp hf with ⟨a, ha, hfa⟩
        have h1 : minAmp ≤ a := hmin ▸ listMin_le_mem ha
        have h2 : a ≤ maxAmp := hmax ▸ mem_le_listMax ha
        have hpos : (0 : ℚ) < maxAmp - minAmp := sub_pos.mpr hlt
        constructor
        · rw [← hfa]
          exact mul_nonneg (div_nonneg (sub_nonneg.mpr h1) hpos.le) (by norm_num)
        · rw [← hfa]
          have hq : (a - minAmp) / (maxAmp - minAmp) ≤ 1 :=
            (div_le_one hpos).mpr (sub_le_sub_right h2 minAmp)
          calc (a - minAmp) / (maxAmp - minAmp) * 10 ≤ 1 * 10 :=
                mul_le_mul_of_nonneg_right hq (by norm_num)
            _ = 10 := by norm_num
      · rw [if_neg hlt] at hf
        rcases List.mem_map.mp hf with ⟨a, _, hfa⟩
        rw [← hfa]
        norm_num
    · intro hall it hit
      have hf := hscore it hit
      have hnlt : ¬ minAmp < maxAmp := by
        intro hlt
        cases hampl : amplified with
        | nil =>
          rw [hmin, hmax, hampl] at hlt
          exact absurd hlt (by simp [listMin, listMax])
        | cons x xs =>
          have hne2 : amplified ≠ [] := by rw [hampl]; exact List.cons_ne_nil x xs
          have h1 : minAmp ∈ amplified := by rw [hmin]; exact listMin_mem hne2
          have h2 : maxAmp ∈ amplified := by rw [hmax]; exact listMax_mem hne2
          exact absurd (hall minAmp h1 maxAmp h2) (ne_of_lt hlt)
      rw [hfin, if_neg hnlt] at hf
      rcases List.mem_map.mp hf with ⟨a, _, hfa⟩
      exact hfa.symm

/-- C7 witness: the theorem at `amp = const 3`, `logits = [1, 2]`,
`documents = ["a", "b"]`, `top_k = 5`, with the degenerate-case hypothesis
discharged (`[3, 3]` is all-equal). -/
theorem rerank_documents_spec_witness :
    List.Sorted (descBy (fun it => it.score))
        (rerank_documents (fun _ => 3) [1, 2] ["a", "b"] 5) ∧
    (rerank_documents (fun _ => 3) [1, 2] ["a", "b"] 5).length ≤ 5 ∧
    (∀ it ∈ rerank_documents (fun _ => 3) [1, 2] ["a", "b"] 5,
        0 ≤ it.score ∧ it.score ≤ 10) ∧
    (∀ it ∈ rerank_documents (fun _ => 3) [1, 2] ["a", "b"] 5, it.score = 5) :=
  ⟨(rerank_documents_spec (fun _ => 3) [1, 2] ["a", "b"] 5).1,
   (rerank_documents_spec (fun _ => 3) [1, 2] ["a", "b"] 5).2.1,
   (rerank_documents_spec (fun _ => 3) [1, 2] ["a", "b"] 5).2.2.1,
   (rerank_documents_spec (fun _ => 3) [1, 2] ["a", "b"] 5).2.2.2 (by decide)⟩

/-! ## C2 — adaptive relevance thresholding

The threshold table of the specification, written out as named functions of
the reranked result list. -/

/-- `[r["rerank_score"] for r in all_reranked_results]`. -/
def rerankScores (l : List SearchResult) : List ℚ := l.map (fun r => r.rerankScore)

/-- `best_score = max(scores)`. -/
def bestScore (l : List SearchResult) : ℚ := listMax (rerankScores l)

/-- `worst_score = min(scores)`. -/
def worstScore (l : List SearchResult) : ℚ := listMin (rerankScores l)

/-- `score_range = best_score - worst_score`. -/
def scoreRange (l : List SearchResult) : ℚ := bestScore l - worstScore l

/-- `HIGH_RELEVANCE_THRESHOLD` per the range table. -/
def highThreshold (l : List SearchResult) : ℚ :=
  if 2 < scoreRange l then bestScore l * (8/10)
  else if 1 < scoreRange l then bestScore l * (7/10)
  else bestScore l - 1/10

/-- `GENERAL_CHAT_THRESHOLD` per the range table. -/
def generalThreshold (l : List SearchResult) : ℚ :=
  if 2 < scoreRange l then bestScore l * (4/10)
  else if 1 < scoreRange l then bestScore l * (3/10)
  else bestScore l * (5/10)

/-- C2: for every non-empty reranked result list, the adaptive filter
returns the empty list when `best < general_threshold`, and otherwise
exactly the items with `rerank_score ≥ high_threshold` (in particular the
empty list when no item reaches the high threshold, since the filter is then
empty); when `range > 2` every returned item has
`rerank_score ≥ 0.8 * best`. -/
theorem adaptive_threshold_spec (l : List SearchResult) (hl : l ≠ []) :
    (adaptiveFilter l =
      if bestScore l < generalThreshold l then []
      else l.filter (fun r => decide (highThreshold l ≤ r.rerankScore))) ∧
    (2 < scoreRange l →
      ∀ r ∈ adaptiveFilter l, bestScore l * (8/10) ≤ r.rerankScore) := by
  have hne : l.isEmpty = false := by
    cases l with
    | nil => exact absurd rfl hl
    | cons a as => rfl
  have heq : adaptiveFilter l =
      if bestScore l < generalThreshold l then []
      else l.filter (fun r => decide (highThreshold l ≤ r.rerankScore)) := by
    simp only [adaptiveFilter, hne, Bool.false_eq_true, if_false, highThreshold,
      generalThreshold, bestScore, worstScore, scoreRange, rerankScores]
  refine ⟨heq, ?_⟩
  intro hrange r hr
  rw [heq] at hr
  by_cases hgen : bestScore l < generalThreshold l
  · rw [if_pos hgen] at hr
    exact absurd hr (List.not_mem_nil r)
  · rw [if_neg hgen] at hr
    have h2 := (List.mem_filter.mp hr).2
    have h3 : highThreshold l ≤ r.rerankScore := of_decide_eq_true h2
    rw [highThreshold, if_pos hrange] at h3
    exact h3

/-- An input for the C2 witness: rerank scores `5, 1, 9/2` (range `4 > 2`). -/
def c2Demo : List SearchResult :=
  [{ id := "a", content := "ta", metadata := {}, rerankScore := 5 },
   { id := "b", content := "tb", metadata := {}, rerankScore := 1 },
   { id := "c", content := "tc", metadata := {}, rerankScore := 9/2 }]

/-- C2 witness: the theorem at the `c2Demo` list. -/
theorem adaptive_threshold_spec_witness :
    (adaptiveFilter c2Demo =
      if bestScore c2Demo < generalThreshold c2Demo then []
      else c2Demo.filter (fun r => decide (highThreshold c2Demo ≤ r.rerankScore))) ∧
    (2 < scoreRange c2Demo →
      ∀ r ∈ adaptiveFilter c2Demo, bestScore c2Demo * (8/10) ≤ r.rerankScore) :=
  adaptive_threshold_spec c2Demo (by decide)

/-! ## Shared membership facts about the search legs -/

theorem mem_bm25Collect_access {L : Int} (scs : List ℚ) :
    ∀ (n : Nat) (ms : List Meta) (ds ids : List String) (r : SearchResult),
      r ∈ bm25Collect L n scs ms ds ids → r.metadata.accessLevel.getD 0 ≤ L := by
  induction scs with
  | nil =>
    intro n ms ds ids r h
    simp [bm25Collect] at h
  | cons sc scs2 ih =>
    intro n ms ds ids r h
    cases ms with
    | nil => simp [bm25Collect] at h
    | cons m ms2 =>
      cases ds with
      | nil => simp [bm25Collect] at h
      | cons d ds2 =>
        cases ids with
        | nil => simp [bm25Collect] at h
        | cons cid ids2 =>
          simp only [bm25Collect] at h
          by_cases hacc : m.accessLevel.getD 0 ≤ L
          · rw [if_pos hacc] at h
            rcases List.mem_cons.mp h with h | h
            · rw [h]; exact hacc
            · exact ih (n + 1) ms2 ds2 ids2 r h
          · rw [if_neg hacc] at h
            exact ih n ms2 ds2 ids2 r h

theorem mem_bm25_search_access {b : Option BM25Data} {scores : List ℚ}
    {L : Int} {top_k : Nat} {r : SearchResult}
    (hr : r ∈ bm25_search b scores L top_k) :
    r.metadata.accessLevel.getD 0 ≤ L := by
  cases b with
  | none => simp [bm25_search] at hr
  | some data =>
    simp only [bm25_search] at hr
    exact mem_bm25Collect_access scores 0 data.metas data.docs data.ids r
      (mem_sortDescBy.mp (List.mem_of_mem_take hr))

/-! ## C4 — the in-process BM25 index is a per-process, not per-level,
singleton -/

/-- Chunks for the C4 counterexample: one at access level 1, one at 100. -/
def c4Store : List Chunk :=
  [{ content := "low", metadata := { docId := some "d1", chunkIndex := some 0, accessLevel := some 1 } },
   { content := "high", metadata := { docId := some "d2", chunkIndex := some 0, accessLevel := some 100 } }]

/-- An empty BM25 cache (every per-level lookup misses). -/
def c4NoCache : Int → Option BM25Data := fun _ => none

/-- A fresh `SearchService` BM25 state. -/
def c4Fresh : BM25State := { initialized := false, bm25 := none }

/-- C4 counterexample: after a first query at clearance 100 initializes the
index, a second query at clearance 1 reuses it unchanged (the
`_bm25_initialized` flag ignores the level), so the index it scores against
is not built over exactly the chunks with `access_level ≤ 1` — it still
contains the level-100 chunk. -/
theorem bm25_not_per_level_counterexample :
    ((ensure_bm25_initialized c4NoCache c4Store 1
        (ensure_bm25_initialized c4NoCache c4Store 100 c4Fresh)).bm25.map
      (fun d => d.docs)) ≠
    some ((c4Store.filter (fun c => accessLevelFilter 1 c.metadata)).map
      (fun c => c.content)) := by
  decide

/-- C4 (amended): the in-process BM25 index is a lazy singleton per process,
not per level: once `_bm25_initialized` is set, `_ensure_bm25_initialized`
returns the state unchanged for every access level; on a fresh state with a
cache miss and a non-empty filtered corpus it builds the index over exactly
the chunks with `access_level ≤ L` of that first call; and the per-candidate
filter of `_bm25_search` still restricts every returned result to
`access_level ≤ L` of the querying call. -/
theorem bm25_singleton_amended :
    (∀ (cache : Int → Option BM25Data) (store : List Chunk) (L : Int)
        (s : BM25State), s.initialized = true →
      ensure_bm25_initialized cache store L s = s) ∧
    (∀ (cache : Int → Option BM25Data) (store : List Chunk) (L : Int)
        (s : BM25State), s.initialized = false → cache L = none →
      store.filter (fun c => accessLevelFilter L c.metadata) ≠ [] →
      ensure_bm25_initialized cache store L s =
        { initialized := true,
          bm25 := some
            { docs := (store.filter (fun c => accessLevelFilter L c.metadata)).map (fun c => c.content),
              metas := (store.filter (fun c => accessLevelFilter L c.metadata)).map (fun c => c.metadata),
              ids := bm25IdsOf 0 ((store.filter (fun c => accessLevelFilter L c.metadata)).map (fun c => c.metadata)) } }) ∧
    (∀ (b : Option BM25Data) (scores : List ℚ) (L : Int) (top_k : Nat),
      ∀ r ∈ bm25_search b scores L top_k, r.metadata.accessLevel.getD 0 ≤ L) := by
  refine ⟨?_, ?_, ?_⟩
  · intro cache store L s hs
    simp [ensure_bm25_initialized, hs]
  · intro cache store L s hs hc hne
    have hne2 : (store.filter (fun c => accessLevelFilter L c.metadata)).isEmpty = false := by
      cases hfe : store.filter (fun c => accessLevelFilter L c.metadata) with
      | nil => exact absurd hfe hne
      | cons a as => rfl
    simp [ensure_bm25_initialized, hs, hc, hne2]
  · intro b scores L top_k r hr
    exact mem_bm25_search_access hr

/-- A one-chunk BM25 corpus for the C4 witness. -/
def c4OneData : BM25Data :=
  { docs := ["low"],
    metas := [{ docId := some "d1", chunkIndex := some 0, accessLevel := some 1 }],
    ids := ["d1_0"] }

/-- The result the C4 witness query returns. -/
def c4OneResult : SearchResult :=
  { id := "d1_0", content := "low",
    metadata := { docId := some "d1", chunkIndex := some 0, accessLevel := some 1 },
    score := 2, rtype := "bm25", rank := 1 }

/-- C4 witness: the amended theorem applied at concrete states — an
already-initialized state is untouched at another level, a fresh build at
level 100 indexes exactly the `access_level ≤ 100` chunks, and a concrete
BM25 query at level 1 returns a result obeying the per-candidate filter. -/
theorem bm25_singleton_amended_witness :
    ensure_bm25_initialized c4NoCache c4Store 5
        { initialized := true, bm25 := none } =
      { initialized := true, bm25 := none } ∧
    ensure_bm25_initialized c4NoCache c4Store 100 c4Fresh =
      { initialized := true,
        bm25 := some
          { docs := (c4Store.filter (fun c => accessLevelFilter 100 c.metadata)).map (fun c => c.content),
            metas := (c4Store.filter (fun c => accessLevelFilter 100 c.metadata)).map (fun c => c.metadata),
            ids := bm25IdsOf 0 ((c4Store.filter (fun c => accessLevelFilter 100 c.metadata)).map (fun c => c.metadata)) } } ∧
    c4OneResult.metadata.accessLevel.getD 0 ≤ 1 :=
  ⟨bm25_singleton_amended.1 c4NoCache c4Store 5 _ rfl,
   bm25_singleton_amended.2.1 c4NoCache c4Store 100 c4Fresh rfl rfl (by decide),
   bm25_singleton_amended.2.2 (some c4OneData) [2] 1 5 c4OneResult (by decide)⟩

/-! ## C1 — the access filter along the whole hybrid pipeline -/

theorem accessLevelFilter_getD {L : Int} {m : Meta}
    (h : accessLevelFilter L m = true) : m.accessLevel.getD 0 ≤ L := by
  cases ha : m.accessLevel with
  | none => rw [accessLevelFilter, ha] at h; exact absurd h (by simp)
  | some a =>
    rw [accessLevelFilter, ha] at h
    exact of_decide_eq_true h

theorem mem_vectorRows (rows : List (Chunk × ℚ)) :
    ∀ (n : Nat) (r : SearchResult), r ∈ vectorRows n rows →
      ∃ cd ∈ rows, r.metadata = cd.1.metadata := by
  induction rows with
  | nil =>
    intro n r h
    simp [vectorRows] at h
  | cons cd rest ih =>
    intro n r h
    rcases List.mem_cons.mp h with h | h
    · exact ⟨cd, List.mem_cons_self cd rest, by rw [h]⟩
    · rcases ih (n + 1) r h with ⟨cd2, hcd2, hm⟩
      exact ⟨cd2, List.mem_cons.mpr (Or.inr hcd2), hm⟩

theorem mem_vector_search_access {ann : List (Chunk × ℚ)} {L : Int}
    {top_k : Nat} {r : SearchResult} (hr : r ∈ vector_search ann L top_k) :
    r.metadata.accessLevel.getD 0 ≤ L := by
  rcases mem_vectorRows (query_chromadb ann L top_k) 0 r hr with ⟨cd, hcd, hm⟩
  have h1 : cd ∈ ann.filter (fun cd => accessLevelFilter L cd.1.metadata) :=
    List.mem_of_mem_take hcd
  have h2 := (List.mem_filter.mp h1).2
  rw [hm]
  exact accessLevelFilter_getD h2

theorem mem_docsSet {d : List (String × SearchResult)} {k : String}
    {v : SearchResult} {p : String × SearchResult} (h : p ∈ docsSet d k v) :
    p ∈ d ∨ p.2 = v := by
  rw [docsSet] at h
  split at h
  · rcases List.mem_map.mp h with ⟨q, hq, heq⟩
    by_cases hk : q.1 == k
    · rw [if_pos hk] at heq
      right; rw [← heq]
    · rw [if_neg hk] at heq
      left; rw [← heq]; exact hq
  · rcases List.mem_append.mp h with h | h
    · exact Or.inl h
    · right
      have : p = (k, v) := List.mem_singleton.mp h
      rw [this]

theorem mem_docsSetIfAbsent {d : List (String × SearchResult)} {k : String}
    {v : SearchResult} {p : String × SearchResult}
    (h : p ∈ docsSetIfAbsent d k v) : p ∈ d ∨ p.2 = v := by
  rw [docsSetIfAbsent] at h
  split at h
  · exact Or.inl h
  · rcases List.mem_append.mp h with h | h
    · exact Or.inl h
    · right
      have : p = (k, v) := List.mem_singleton.mp h
      rw [this]

theorem rrfVecLoop_docs (vw : ℚ) (vec : List SearchResult) :
    ∀ (n : Nat) (d : List (String × ℚ)) (docs : List (String × SearchResult))
      (p : String × SearchResult), p ∈ (rrfVecLoop vw n vec d docs).2 →
      p ∈ docs ∨ p.2 ∈ vec := by
  induction vec with
  | nil =>
    intro n d docs p h
    exact Or.inl h
  | cons r rest ih =>
    intro n d docs p h
    rcases ih (n + 1) _ (docsSet docs r.id r) p h with h2 | h2
    · rcases mem_docsSet h2 with h3 | h3
      · exact Or.inl h3
      · exact Or.inr (List.mem_cons.mpr (Or.inl h3))
    · exact Or.inr (List.mem_cons.mpr (Or.inr h2))

theorem rrfBmLoop_docs (bw : ℚ) (bm : List SearchResult) :
    ∀ (n : Nat) (d : List (String × ℚ)) (docs : List (String × SearchResult))
      (p : String × SearchResult), p ∈ (rrfBmLoop bw n bm d docs).2 →
      p ∈ docs ∨ p.2 ∈ bm := by
  induction bm with
  | nil =>
    intro n d docs p h
    exact Or.inl h
  | cons r rest ih =>
    intro n d docs p h
    rcases ih (n + 1) _ (docsSetIfAbsent docs r.id r) p h with h2 | h2
    · rcases mem_docsSetIfAbsent h2 with h3 | h3
      · exact Or.inl h3
      · exact Or.inr (List.mem_cons.mpr (Or.inl h3))
    · exact Or.inr (List.mem_cons.mpr (Or.inr h2))

theorem mem_rrfRankLoop (entries : List (String × ℚ)) :
    ∀ (n : Nat) (docs : List (String × SearchResult)) (r : SearchResult),
      r ∈ rrfRankLoop n entries docs →
      ∃ p ∈ docs, r.metadata = p.2.metadata := by
  induction entries with
  | nil =>
    intro n docs r h
    simp [rrfRankLoop] at h
  | cons e rest ih =>
    intro n docs r h
    rcases e with ⟨k, sc⟩
    simp only [rrfRankLoop] at h
    cases hfind : docs.find? (fun p => p.1 == k) with
    | none =>
      rw [hfind] at h
      exact ih (n + 1) docs r h
    | some q =>
      rw [hfind] at h
      rcases List.mem_cons.mp h with h | h
      · exact ⟨q, List.mem_of_find?_eq_some hfind, by rw [h]⟩
      · exact ih (n + 1) docs r h

theorem mem_rrf_fusion_meta {vec bm : List SearchResult} {vw bw : ℚ}
    {r : SearchResult} (h : r ∈ rrf_fusion vec bm vw bw) :
    ∃ s, (s ∈ vec ∨ s ∈ bm) ∧ r.metadata = s.metadata := by
  simp only [rrf_fusion] at h
  rcases mem_rrfRankLoop _ 0 _ r h with ⟨p, hp, hmeta⟩
  rcases rrfBmLoop_docs bw bm 0 _ _ p hp with h2 | h2
  · rcases rrfVecLoop_docs vw vec 0 [] [] p h2 with h3 | h3
    · exact absurd h3 (List.not_mem_nil p)
    · exact ⟨p.2, Or.inl h3, hmeta⟩
  · exact ⟨p.2, Or.inr h2, hmeta⟩

theorem mem_matchLoop {results : List SearchResult} (rr : List (Nat × ℚ)) :
    ∀ (n : Nat) (r : SearchResult), r ∈ matchLoop results rr n →
      ∃ s ∈ results, r.metadata = s.metadata := by
  induction rr with
  | nil =>
    intro n r h
    simp [matchLoop] at h
  | cons e rest ih =>
    intro n r h
    rcases e with ⟨idx, sc⟩
    simp only [matchLoop] at h
    cases hget : results[idx]? with
    | none =>
      rw [hget] at h
      exact ih n r h
    | some q =>
      rw [hget] at h
      rcases List.mem_cons.mp h with h | h
      · exact ⟨q, List.getElem?_mem hget, by rw [h]⟩
      · exact ih (n + 1) r h

theorem adaptiveFilter_cases (l : List SearchResult) :
    adaptiveFilter l = [] ∨ ∃ p, adaptiveFilter l = l.filter p := by
  simp only [adaptiveFilter]
  repeat' split
  all_goals first
    | exact Or.inl rfl
    | exact Or.inr ⟨_, rfl⟩

theorem adaptiveFilter_subset {l : List SearchResult} {r : SearchResult}
    (h : r ∈ adaptiveFilter l) : r ∈ l := by
  rcases adaptiveFilter_cases l with he | ⟨p, he⟩
  · rw [he] at h
    exact absurd h (List.not_mem_nil r)
  · rw [he] at h
    exact (List.mem_filter.mp h).1

theorem mem_rerank_results_svc {results : List SearchResult}
    {rr : List (Nat × ℚ)} {r : SearchResult}
    (h : r ∈ rerank_results_svc results rr) :
    ∃ s ∈ results, r.metadata = s.metadata := by
  simp only [rerank_results_svc] at h
  split at h
  · exact absurd h (List.not_mem_nil r)
  · exact mem_matchLoop rr 0 r (adaptiveFilter_subset h)

/-- C1: every result of `hybrid_search` has `access_level ≤ L`: the vector
leg's results pass the ChromaDB where-filter, the BM25 leg checks each
candidate's metadata, and fusion, rerank matching and adaptive filtering
only select among (and never alter the metadata of) those records. -/
theorem hybrid_search_access_filter (ann : List (Chunk × ℚ))
    (b : Option BM25Data) (bmScores : List ℚ) (rerankOut : List (Nat × ℚ))
    (L : Int) (top_k rerank_top_k : Nat) (vw bw : ℚ) :
    ∀ r ∈ hybrid_search_results ann b bmScores rerankOut L top_k
        rerank_top_k vw bw,
      r.metadata.accessLevel.getD 0 ≤ L := by
  intro r hr
  simp only [hybrid_search_results] at hr
  have hfused : ∀ s ∈ rrf_fusion (vector_search ann L top_k)
      (bm25_search b bmScores L top_k) vw bw,
      s.metadata.accessLevel.getD 0 ≤ L := by
    intro s hs
    rcases mem_rrf_fusion_meta hs with ⟨t, ht, hmeta⟩
    rw [hmeta]
    rcases ht with ht | ht
    · exact mem_vector_search_access ht
    · exact mem_bm25_search_access ht
  split at hr
  · rcases mem_rerank_results_svc hr with ⟨s, hs, hmeta⟩
    rw [hmeta]
    exact hfused s hs
  · exact hfused r (List.mem_of_mem_take hr)

/-- The single ANN candidate of the C1 witness. -/
def c1Ann : List (Chunk × ℚ) :=
  [({ content := "hello",
      metadata := { docId := some "d", chunkIndex := some 0, accessLevel := some 1 } }, 0)]

/-- The record the C1 witness query returns. -/
def c1DemoOut : SearchResult :=
  { id := "d_0", content := "hello",
    metadata := { docId := some "d", chunkIndex := some 0, accessLevel := some 1 },
    score := 1, rtype := "hybrid", rank := 1, rrfScore := 7/610,
    rerankScore := 5, finalRank := 1 }

unseal Rat.add Rat.mul Rat.sub Rat.inv in
/-- C1 witness: the theorem at a concrete one-chunk query whose output is
the non-empty list `[c1DemoOut]`. -/
theorem hybrid_search_access_filter_witness :
    c1DemoOut ∈ hybrid_search_results c1Ann none [] [(0, 5)] 1 5 5 (7/10) (3/10) ∧
    c1DemoOut.metadata.accessLevel.getD 0 ≤ 1 :=
  ⟨by decide,
   hybrid_search_access_filter c1Ann none [] [(0, 5)] 1 5 5 (7/10) (3/10)
     c1DemoOut (by decide)⟩

/-! ## C9 — connection-pool invariants -/

theorem inv_wait (live : Nat → Bool) (w : Bool) {m : Nat} {s : PoolState}
    (hs : PoolInv m s) : PoolInv m (getClientWait live w s).2 := by
  rcases hs with ⟨hnd, hlen, hle⟩
  cases w with
  | false => exact ⟨hnd, hlen, hle⟩
  | true =>
    cases hav : s.available with
    | nil =>
      simp only [getClientWait, hav]
      exact ⟨hnd, hlen, hle⟩
    | cons c rest =>
      have hnd2 : (c :: (rest ++ s.active)).Nodup := by
        rw [hav] at hnd
        simpa using hnd
      have hcn : c ∉ rest ++ s.active := (List.nodup_cons.mp hnd2).1
      have hrest : (rest ++ s.active).Nodup := (List.nodup_cons.mp hnd2).2
      have hca : c ∉ s.active := fun h2 => hcn (List.mem_append.mpr (Or.inr h2))
      have hsadd : setAdd s.active c = c :: s.active := by simp [setAdd, hca]
      have hlen2 : rest.length + 1 + s.active.length = s.count := by
        rw [hav] at hlen
        simp only [List.length_cons] at hlen
        omega
      cases hlc : live c with
      | true =>
        simp only [getClientWait, hav, hlc, hsadd]
        refine ⟨List.perm_middle.nodup_iff.mpr hnd2, ?_, hle⟩
        dsimp only
        simp only [List.length_cons]
        omega
      | false =>
        simp only [getClientWait, hav, hlc, hsadd, setDiscard, List.erase_cons_head]
        refine ⟨hrest, ?_, ?_⟩
        · dsimp only
          omega
        · dsimp only
          omega

theorem inv_create (live : Nat → Bool) (create : Option Nat) (w : Bool) {m : Nat}
    {s : PoolState} (hs : PoolInv m s) (hf : createFresh s create) :
    PoolInv m (getClientCreate live m create w s).2 := by
  rcases hs with ⟨hnd, hlen, hle⟩
  cases hdec : decide (s.count < m) with
  | false =>
    simp only [getClientCreate, hdec]
    exact inv_wait live w ⟨hnd, hlen, hle⟩
  | true =>
    cases create with
    | none =>
      simp only [getClientCreate, hdec]
      exact inv_wait live w ⟨hnd, hlen, hle⟩
    | some h =>
      rcases hf with ⟨hfa, hfac⟩
      have hsadd : setAdd s.active h = h :: s.active := by simp [setAdd, hfac]
      have hcm : s.count < m := of_decide_eq_true hdec
      simp only [getClientCreate, hdec, hsadd]
      refine ⟨?_, ?_, ?_⟩
      · refine List.perm_middle.nodup_iff.mpr (List.nodup_cons.mpr ⟨?_, hnd⟩)
        intro hmem
        rcases List.mem_append.mp hmem with h1 | h1
        · exact hfa h1
        · exact hfac h1
      · dsimp only
        simp only [List.length_cons]
        omega
      · dsimp only
        omega

theorem inv_get (live : Nat → Bool) (create : Option Nat) (w : Bool) {m : Nat}
    {s : PoolState} (hs : PoolInv m s) (hf : createFresh s create) :
    PoolInv m (get_client live m create w s).2 := by
  rcases hs with ⟨hnd, hlen, hle⟩
  cases hav : s.available with
  | nil =>
    simp only [get_client, hav]
    exact inv_create live create w ⟨hnd, hlen, hle⟩ hf
  | cons c rest =>
    have hnd2 : (c :: (rest ++ s.active)).Nodup := by
      rw [hav] at hnd
      simpa using hnd
    have hcn : c ∉ rest ++ s.active := (List.nodup_cons.mp hnd2).1
    have hrest : (rest ++ s.active).Nodup := (List.nodup_cons.mp hnd2).2
    have hca : c ∉ s.active := fun h2 => hcn (List.mem_append.mpr (Or.inr h2))
    have hsadd : setAdd s.active c = c :: s.active := by simp [setAdd, hca]
    have hlen2 : rest.length + 1 + s.active.length = s.count := by
      rw [hav] at hlen
      simp only [List.length_cons] at hlen
      omega
    cases hlc : live c with
    | true =>
      simp only [get_client, hav, hlc, hsadd]
      refine ⟨List.perm_middle.nodup_iff.mpr hnd2, ?_, hle⟩
      dsimp only
      simp only [List.length_cons]
      omega
    | false =>
      simp only [get_client, hav, hlc, hsadd, setDiscard, List.erase_cons_head]
      have hs2 : PoolInv m (⟨rest, s.active, s.count - 1⟩ : PoolState) := by
        refine ⟨hrest, ?_, ?_⟩
        · dsimp only
          omega
        · dsimp only
          omega
      refine inv_create live create w hs2 ?_
      cases create with
      | none => exact trivial
      | some h =>
        rcases hf with ⟨hfa, hfac⟩
        refine ⟨?_, hfac⟩
        intro hmem
        exact hfa (by rw [hav]; exact List.mem_cons.mpr (Or.inr hmem))

theorem inv_ret (live : Nat → Bool) (c : Nat) {m : Nat} {s : PoolState}
    (hs : PoolInv m s) : PoolInv m (return_client live m c s) := by
  rcases hs with ⟨hnd, hlen, hle⟩
  rcases List.nodup_append.mp hnd with ⟨hnda, hndact, hdisj⟩
  cases hmem : decide (c ∈ s.active) with
  | false =>
    simp only [return_client, hmem]
    exact ⟨hnd, hlen, hle⟩
  | true =>
    have hca : c ∈ s.active := of_decide_eq_true hmem
    have hpos : 0 < s.active.length := List.length_pos.mpr (List.ne_nil_of_mem hca)
    have herlen : (s.active.erase c).length = s.active.length - 1 :=
      List.length_erase_of_mem hca
    have hnderase : (s.active.erase c).Nodup := hndact.erase c
    have hcnota : c ∉ s.available := fun h2 => hdisj h2 hca
    have hsubl : List.Sublist (s.available ++ s.active.erase c)
        (s.available ++ s.active) :=
      List.Sublist.append_left (List.erase_sublist c s.active) s.available
    cases hlc : live c with
    | true =>
      cases hroom : decide (s.available.length < m) with
      | true =>
        simp only [return_client, hmem, hlc, hroom]
        refine ⟨?_, ?_, hle⟩
        · refine List.nodup_append.mpr ⟨?_, hnderase, ?_⟩
          · refine List.nodup_append.mpr ⟨hnda, List.nodup_singleton c, ?_⟩
            intro x hx hx2
            rw [List.mem_singleton.mp hx2] at hx
            exact hcnota hx
          · intro x hx hx2
            rcases List.mem_append.mp hx with h1 | h1
            · exact hdisj h1 (List.mem_of_mem_erase hx2)
            · rw [List.mem_singleton.mp h1] at hx2
              exact hndact.not_mem_erase hx2
        · dsimp only
          simp only [List.length_append, List.length_singleton]
          omega
      | false =>
        simp only [return_client, hmem, hlc, hroom]
        refine ⟨hnd.sublist hsubl, ?_, ?_⟩
        · dsimp only
          omega
        · dsimp only
          omega
    | false =>
      simp only [return_client, hmem, hlc]
      refine ⟨hnd.sublist hsubl, ?_, ?_⟩
      · dsimp only
        omega
      · dsimp only
        omega

theorem wait_returns_live {live : Nat → Bool} {w : Bool} {s : PoolState} {c : Nat}
    (h : (getClientWait live w s).1 = some c) : live c = true := by
  cases w with
  | false => simp [getClientWait] at h
  | true =>
    cases hav : s.available with
    | nil => simp [getClientWait, hav] at h
    | cons a rest =>
      cases hlc : live a with
      | true =>
        simp only [getClientWait, hav, hlc] at h
        have : a = c := by simpa using h
        rw [← this]
        exact hlc
      | false => simp [getClientWait, hav, hlc] at h

theorem create_returns_live {live : Nat → Bool} {m : Nat} {create : Option Nat}
    {w : Bool} {s : PoolState} {c : Nat} (hl : createLive live create)
    (h : (getClientCreate live m create w s).1 = some c) : live c = true := by
  cases hdec : decide (s.count < m) with
  | false =>
    simp only [getClientCreate, hdec] at h
    exact wait_returns_live h
  | true =>
    cases create with
    | none =>
      simp only [getClientCreate, hdec] at h
      exact wait_returns_live h
    | some a =>
      simp only [getClientCreate, hdec] at h
      have : a = c := by simpa using h
      rw [← this]
      exact hl

theorem get_client_returns_live {live : Nat → Bool} {m : Nat} {create : Option Nat}
    {w : Bool} {s : PoolState} {c : Nat} (hl : createLive live create)
    (h : (get_client live m create w s).1 = some c) : live c = true := by
  cases hav : s.available with
  | nil =>
    simp only [get_client, hav] at h
    exact create_returns_live hl h
  | cons a rest =>
    cases hlc : live a with
    | true =>
      simp only [get_client, hav, hlc] at h
      have : a = c := by simpa using h
      rw [← this]
      exact hlc
    | false =>
      simp only [get_client, hav, hlc] at h
      exact create_returns_live hl h

/-- C9: across every well-formed sequence of `get_client` / `return_client`
operations, `available + active = connection_count ≤ max_connections` (with
the queue and the active set duplicate-free and disjoint) is preserved; and
`get_client` never hands out a dead handle — every handle it returns passes
the heartbeat. -/
theorem pool_invariant_spec :
    (∀ (live : Nat → Bool) (maxConn : Nat) (s : PoolState) (ops : List PoolOp),
      PoolInv maxConn s → wfOps live maxConn s ops →
      PoolInv maxConn (poolRun live maxConn s ops)) ∧
    (∀ (live : Nat → Bool) (maxConn : Nat) (create : Option Nat) (wait : Bool)
        (s : PoolState) (c : Nat), createLive live create →
      (get_client live maxConn create wait s).1 = some c → live c = true) := by
  constructor
  · intro live m s ops
    induction ops generalizing s with
    | nil => intro h _; exact h
    | cons op rest ih =>
      intro hinv hwf
      rcases hwf with ⟨hop, hrest⟩
      refine ih (poolStep live m s op) ?_ hrest
      cases op with
      | get create w => exact inv_get live create w hinv hop.2
      | ret c => exact inv_ret live c hinv
  · intro live m create w s c hl h
    exact get_client_returns_live hl h

/-- The liveness oracle of the C9 witness: handle 2 is dead. -/
def c9Live : Nat → Bool := fun n => !(n == 2)

/-- The start state of the C9 witness. -/
def c9Start : PoolState := { available := [1], active := [], count := 1 }

/-- The operation sequence of the C9 witness. -/
def c9Ops : List PoolOp :=
  [.get none true, .get (some 7) true, .ret 1, .ret 7, .get none true]

/-- C9 witness: the theorem run on a concrete pool and operation sequence,
and a concrete `get_client` call whose returned handle is live. -/
theorem pool_invariant_spec_witness :
    PoolInv 2 (poolRun c9Live 2 c9Start c9Ops) ∧ c9Live 1 = true :=
  ⟨pool_invariant_spec.1 c9Live 2 c9Start c9Ops (by decide) (by decide),
   pool_invariant_spec.2 c9Live 2 none true c9Start 1 (by decide) (by decide)⟩

/-! ## C6 — RRF fusion with a zero-weight leg

Helper notions for reasoning about the insertion-ordered dict
`rrf_scores`. -/

/-- Python `key in dict` on the association-list model. -/
def keyMem {α : Type} (d : List (String × α)) (k : String) : Bool :=
  d.any (fun p => p.1 == k)

/-- Does some result of a leg carry id `k`? -/
def idMem (l : List SearchResult) (k : String) : Bool :=
  l.any (fun r => r.id == k)

/-- The RRF weight of rank `n` (0-based): `1 / (k + rank + 1)`, `k = 60`. -/
def wq (n : Nat) : ℚ := 1 / (60 + (n : ℚ) + 1)

/-- The dict entries a leg of weight `w` starting at rank `n` contributes
when every id is fresh. -/
def legEntries (w : ℚ) : Nat → List SearchResult → List (String × ℚ)
  | _, [] => []
  | n, r :: rest => (r.id, w * wq n) :: legEntries w (n + 1) rest

theorem wq_pos (n : Nat) : 0 < wq n := by
  rw [wq]
  positivity

theorem wq_antitone {n m : Nat} (h : n ≤ m) : wq m ≤ wq n := by
  rw [wq, wq]
  have h1 : (0 : ℚ) < 60 + (n : ℚ) + 1 := by positivity
  have h2 : (60 : ℚ) + (n : ℚ) + 1 ≤ 60 + (m : ℚ) + 1 := by
    have : (n : ℚ) ≤ (m : ℚ) := by exact_mod_cast h
    linarith
  exact one_div_le_one_div_of_le h1 h2

theorem wq_strict {n m : Nat} (h : n < m) : wq m < wq n := by
  rw [wq, wq]
  have h1 : (0 : ℚ) < 60 + (n : ℚ) + 1 := by positivity
  have h2 : (60 : ℚ) + (n : ℚ) + 1 < 60 + (m : ℚ) + 1 := by
    have : (n : ℚ) < (m : ℚ) := by exact_mod_cast h
    linarith
  exact one_div_lt_one_div_of_lt h1 h2

theorem legEntries_map_fst (w : ℚ) (l : List SearchResult) :
    ∀ n, (legEntries w n l).map (fun p => p.1) = l.map (fun r => r.id) := by
  induction l with
  | nil => intro n; rfl
  | cons r rest ih => intro n; simp [legEntries, ih (n + 1)]

theorem legEntries_val (w : ℚ) (l : List SearchResult) :
    ∀ n p, p ∈ legEntries w n l → ∃ j, n ≤ j ∧ p.2 = w * wq j := by
  induction l with
  | nil => intro n p h; simp [legEntries] at h
  | cons r rest ih =>
    intro n p h
    rcases List.mem_cons.mp h with h | h
    · exact ⟨n, le_refl n, by rw [h]⟩
    · rcases ih (n + 1) p h with ⟨j, hj, hv⟩
      exact ⟨j, by omega, hv⟩

theorem legEntries_zero (l : List SearchResult) :
    ∀ n p, p ∈ legEntries 0 n l → p.2 = 0 := by
  intro n p h
  rcases legEntries_val 0 l n p h with ⟨j, _, hv⟩
  rw [hv, zero_mul]

theorem legEntries_pos {w : ℚ} (hw : 0 < w) (l : List SearchResult) :
    ∀ n p, p ∈ legEntries w n l → 0 < p.2 := by
  intro n p h
  rcases legEntries_val w l n p h with ⟨j, _, hv⟩
  rw [hv]
  exact mul_pos hw (wq_pos j)

theorem legEntries_strict {w : ℚ} (hw : 0 < w) (l : List SearchResult) :
    ∀ n, (legEntries w n l).Pairwise (fun a b => b.2 < a.2) := by
  induction l with
  | nil => intro n; exact List.Pairwise.nil
  | cons r rest ih =>
    intro n
    refine List.pairwise_cons.mpr ⟨?_, ih (n + 1)⟩
    intro b hb
    rcases legEntries_val w rest (n + 1) b hb with ⟨j, hj, hv⟩
    rw [hv]
    exact mul_lt_mul_of_pos_left (wq_strict (by omega)) hw

theorem legEntries_sorted {w : ℚ} (hw : 0 < w) (l : List SearchResult) (n : Nat) :
    List.Sorted (descBy (fun p => p.2)) (legEntries w n l) :=
  (legEntries_strict hw l n).imp (fun h => le_of_lt h)

theorem legEntries_values_nodup {w : ℚ} (hw : 0 < w) (l : List SearchResult)
    (n : Nat) : ((legEntries w n l).map (fun p => p.2)).Nodup := by
  rw [List.Nodup, List.pairwise_map]
  exact (legEntries_strict hw l n).imp (fun h => (ne_of_lt h).symm)

theorem keyMem_append {α : Type} (d1 d2 : List (String × α)) (k : String) :
    keyMem (d1 ++ d2) k = (keyMem d1 k || keyMem d2 k) := by
  simp [keyMem]

theorem keyMem_singleton {α : Type} (k k2 : String) (v : α) :
    keyMem [(k, v)] k2 = (k == k2) := by
  simp [keyMem]

theorem keyMem_false_of_mem {α : Type} {d : List (String × α)} {k : String}
    (h : keyMem d k = false) {p : String × α} (hp : p ∈ d) : p.1 ≠ k := by
  intro he
  rw [keyMem, List.any_eq_false] at h
  exact h p hp (by simp [he])

theorem keyMem_true_iff {α : Type} {d : List (String × α)} {k : String} :
    keyMem d k = true ↔ ∃ p ∈ d, p.1 = k := by
  simp [keyMem]

theorem dictGetD_not_mem {d : List (String × ℚ)} {k : String}
    (h : keyMem d k = false) : dictGetD d k = 0 := by
  have hf : d.find? (fun p => p.1 == k) = none := by
    rw [List.find?_eq_none]
    intro p hp
    simp [keyMem_false_of_mem h hp]
  rw [dictGetD, hf]

theorem dictSet_not_mem {d : List (String × ℚ)} {k : String} {v : ℚ}
    (h : keyMem d k = false) : dictSet d k v = d ++ [(k, v)] := by
  rw [dictSet, if_neg]
  rw [keyMem] at h
  simp [h]

theorem docsSet_not_mem {d : List (String × SearchResult)} {k : String}
    {v : SearchResult} (h : keyMem d k = false) : docsSet d k v = d ++ [(k, v)] := by
  rw [docsSet, if_neg]
  rw [keyMem] at h
  simp [h]

theorem docsSetIfAbsent_not_mem {d : List (String × SearchResult)} {k : String}
    {v : SearchResult} (h : keyMem d k = false) :
    docsSetIfAbsent d k v = d ++ [(k, v)] := by
  rw [docsSetIfAbsent, if_neg]
  rw [keyMem] at h
  simp [h]

theorem docsSetIfAbsent_mem {d : List (String × SearchResult)} {k : String}
    {v : SearchResult} (h : keyMem d k = true) : docsSetIfAbsent d k v = d := by
  rw [docsSetIfAbsent, if_pos]
  rw [keyMem] at h
  simp [h]

theorem keyMem_decomp {α : Type} {d : List (String × α)} {k : String}
    (h : keyMem d k = true) :
    ∃ d1 v0 d2, d = d1 ++ (k, v0) :: d2 ∧ keyMem d1 k = false := by
  induction d with
  | nil => simp [keyMem] at h
  | cons p rest ih =>
    by_cases hp : p.1 = k
    · refine ⟨[], p.2, rest, ?_, rfl⟩
      rw [show ((k, p.2) : String × α) = p from by
        cases p
        simp at hp
        rw [hp]]
      rfl
    · have h2 : keyMem rest k = true := by
        rw [keyMem] at h ⊢
        simpa [hp] using h
      rcases ih h2 with ⟨d1, v0, d2, hd, hm⟩
      refine ⟨p :: d1, v0, d2, by rw [hd]; rfl, ?_⟩
      rw [keyMem] at hm ⊢
      simp [hp, hm]

theorem keyMem_decomp_nodup {α : Type} {d : List (String × α)} {k : String}
    (hnd : (d.map (fun p => p.1)).Nodup) (h : keyMem d k = true) :
    ∃ d1 v0 d2, d = d1 ++ (k, v0) :: d2 ∧ keyMem d1 k = false ∧
      keyMem d2 k = false := by
  rcases keyMem_decomp h with ⟨d1, v0, d2, hd, hm1⟩
  refine ⟨d1, v0, d2, hd, hm1, ?_⟩
  rw [hd] at hnd
  simp only [List.map_append, List.map_cons] at hnd
  have h2 : k ∉ d2.map (fun p => p.1) := by
    have := (List.nodup_append.mp hnd).2.1
    exact (List.nodup_cons.mp this).1
  rw [keyMem, List.any_eq_false]
  intro p hp
  simp only [beq_iff_eq]
  intro he
  exact h2 (by rw [← he]; exact List.mem_map_of_mem (fun p => p.1) hp)

theorem find?_first_key {v0 : ℚ} {d1 d2 : List (String × ℚ)} {k : String}
    (hm1 : keyMem d1 k = false) :
    (d1 ++ (k, v0) :: d2).find? (fun p => p.1 == k) = some (k, v0) := by
  induction d1 with
  | nil => exact List.find?_cons_of_pos _ (by simp)
  | cons q rest ih =>
    have hq : (q.1 == k) = false := by
      simp [keyMem_false_of_mem hm1 (List.mem_cons_self q rest)]
    have hm2 : keyMem rest k = false := by
      rw [keyMem] at hm1 ⊢
      simp only [List.any_cons, Bool.or_eq_false_iff] at hm1
      exact hm1.2
    rw [List.cons_append, List.find?_cons_of_neg _ (by simp [hq]), ih hm2]

theorem dictGetD_decomp {v0 : ℚ} {d1 d2 : List (String × ℚ)} {k : String}
    (hm1 : keyMem d1 k = false) :
    dictGetD (d1 ++ (k, v0) :: d2) k = v0 := by
  rw [dictGetD, find?_first_key hm1]

theorem dictSet_decomp {v0 v : ℚ} {d1 d2 : List (String × ℚ)} {k : String}
    (hm1 : keyMem d1 k = false) (hm2 : keyMem d2 k = false) :
    dictSet (d1 ++ (k, v0) :: d2) k v = d1 ++ (k, v) :: d2 := by
  have hmem : (d1 ++ (k, v0) :: d2).any (fun p => p.1 == k) = true := by
    simp
  rw [dictSet, if_pos hmem]
  rw [List.map_append, List.map_cons]
  congr 1
  · refine List.map_congr_left ?_ |>.trans (List.map_id d1)
    intro p hp
    simp [keyMem_false_of_mem hm1 hp]
  · congr 1
    · simp
    · refine List.map_congr_left ?_ |>.trans (List.map_id d2)
      intro p hp
      simp [keyMem_false_of_mem hm2 hp]

/-! Characterizations of the two RRF accumulation loops. -/

theorem rrfVecLoop_char (vw : ℚ) :
    ∀ (vec : List SearchResult) (n : Nat) (d : List (String × ℚ))
      (docs : List (String × SearchResult)),
      (vec.map (fun r => r.id)).Nodup →
      (∀ r ∈ vec, keyMem d r.id = false) →
      (∀ r ∈ vec, keyMem docs r.id = false) →
      (rrfVecLoop vw n vec d docs).1 = d ++ legEntries vw n vec ∧
      (rrfVecLoop vw n vec d docs).2 = docs ++ vec.map (fun r => (r.id, r)) := by
  intro vec
  induction vec with
  | nil =>
    intro n d docs _ _ _
    simp [rrfVecLoop, legEntries]
  | cons r rest ih =>
    intro n d docs hnd hkd hkdocs
    have hkr : keyMem d r.id = false := hkd r (List.mem_cons_self r rest)
    have hkrdocs : keyMem docs r.id = false := hkdocs r (List.mem_cons_self r rest)
    have hndrest : (rest.map (fun r => r.id)).Nodup := (List.nodup_cons.mp hnd).2
    have hrid : r.id ∉ rest.map (fun r => r.id) := (List.nodup_cons.mp hnd).1
    have hval : dictGetD d r.id + vw * (1 / (60 + (n : ℚ) + 1)) = vw * wq n := by
      rw [dictGetD_not_mem hkr, wq, zero_add]
    have hstep : rrfVecLoop vw n (r :: rest) d docs =
        rrfVecLoop vw (n + 1) rest (d ++ [(r.id, vw * wq n)]) (docs ++ [(r.id, r)]) := by
      rw [rrfVecLoop, hval, dictSet_not_mem hkr, docsSet_not_mem hkrdocs]
    rw [hstep]
    have hrest := ih (n + 1) (d ++ [(r.id, vw * wq n)]) (docs ++ [(r.id, r)]) hndrest
      (by
        intro x hx
        rw [keyMem_append, hkd x (List.mem_cons.mpr (Or.inr hx)), keyMem_singleton]
        simp only [Bool.false_or, beq_eq_false_iff_ne, ne_eq]
        intro he
        exact hrid (by rw [he]; exact List.mem_map_of_mem _ hx))
      (by
        intro x hx
        rw [keyMem_append, hkdocs x (List.mem_cons.mpr (Or.inr hx)), keyMem_singleton]
        simp only [Bool.false_or, beq_eq_false_iff_ne, ne_eq]
        intro he
        exact hrid (by rw [he]; exact List.mem_map_of_mem _ hx))
    rcases hrest with ⟨h1, h2⟩
    constructor
    · rw [h1, List.append_assoc]
      rfl
    · rw [h2, List.append_assoc]
      rfl

theorem rrfBmLoop_docs_char (bw : ℚ) :
    ∀ (bm : List SearchResult) (n : Nat) (d : List (String × ℚ))
      (docs : List (String × SearchResult)),
      (bm.map (fun r => r.id)).Nodup →
      (rrfBmLoop bw n bm d docs).2 =
        docs ++ (bm.filter (fun r => !keyMem docs r.id)).map (fun r => (r.id, r)) := by
  intro bm
  induction bm with
  | nil =>
    intro n d docs _
    simp [rrfBmLoop]
  | cons r rest ih =>
    intro n d docs hnd
    have hndrest : (rest.map (fun r => r.id)).Nodup := (List.nodup_cons.mp hnd).2
    have hrid : r.id ∉ rest.map (fun r => r.id) := (List.nodup_cons.mp hnd).1
    by_cases hk : keyMem docs r.id = true
    · have hstep : (rrfBmLoop bw n (r :: rest) d docs).2 =
          (rrfBmLoop bw (n + 1) rest
            (dictSet d r.id (dictGetD d r.id + bw * (1 / (60 + (n : ℚ) + 1)))) docs).2 := by
        rw [rrfBmLoop, docsSetIfAbsent_mem hk]
      rw [hstep, ih (n + 1) _ docs hndrest]
      congr 2
      rw [List.filter_cons_of_neg (by simp [hk])]
    · have hkf : keyMem docs r.id = false := by
        cases hkb : keyMem docs r.id with
        | false => rfl
        | true => exact absurd hkb hk
      have hstep : (rrfBmLoop bw n (r :: rest) d docs).2 =
          (rrfBmLoop bw (n + 1) rest
            (dictSet d r.id (dictGetD d r.id + bw * (1 / (60 + (n : ℚ) + 1))))
            (docs ++ [(r.id, r)])).2 := by
        rw [rrfBmLoop, docsSetIfAbsent_not_mem hkf]
      rw [hstep, ih (n + 1) _ (docs ++ [(r.id, r)]) hndrest]
      rw [List.filter_cons_of_pos (by simp [hkf])]
      rw [List.filter_congr (l := rest) (q := fun r2 => !keyMem docs r2.id) ?_]
      · simp [List.append_assoc]
      · intro x hx
        rw [keyMem_append, keyMem_singleton]
        have : (r.id == x.id) = false := by
          simp only [beq_eq_false_iff_ne, ne_eq]
          intro he
          exact hrid (by rw [he]; exact List.mem_map_of_mem _ hx)
        rw [this]
        simp

theorem rrfBmLoop_zero_dict :
    ∀ (bm : List SearchResult) (n : Nat) (d : List (String × ℚ))
      (docs : List (String × SearchResult)),
      (d.map (fun p => p.1)).Nodup →
      (bm.map (fun r => r.id)).Nodup →
      (rrfBmLoop 0 n bm d docs).1 =
        d ++ (bm.filter (fun r => !keyMem d r.id)).map (fun r => (r.id, (0 : ℚ))) := by
  intro bm
  induction bm with
  | nil =>
    intro n d docs _ _
    simp [rrfBmLoop]
  | cons r rest ih =>
    intro n d docs hdnd hnd
    have hndrest : (rest.map (fun r => r.id)).Nodup := (List.nodup_cons.mp hnd).2
    have hrid : r.id ∉ rest.map (fun r => r.id) := (List.nodup_cons.mp hnd).1
    have hval : dictGetD d r.id + 0 * (1 / (60 + (n : ℚ) + 1)) = dictGetD d r.id := by
      rw [zero_mul, add_zero]
    by_cases hk : keyMem d r.id = true
    · rcases keyMem_decomp_nodup hdnd hk with ⟨d1, v0, d2, hd, hm1, hm2⟩
      have hget : dictGetD d r.id = v0 := by rw [hd]; exact dictGetD_decomp hm1
      have hset : dictSet d r.id (dictGetD d r.id + 0 * (1 / (60 + (n : ℚ) + 1))) = d := by
        rw [hval, hget, hd]
        exact dictSet_decomp hm1 hm2
      have hstep : (rrfBmLoop 0 n (r :: rest) d docs).1 =
          (rrfBmLoop 0 (n + 1) rest d (docsSetIfAbsent docs r.id r)).1 := by
        rw [rrfBmLoop, hset]
      rw [hstep, ih (n + 1) d _ hdnd hndrest]
      congr 2
      rw [List.filter_cons_of_neg (by simp [hk])]
    · have hkf : keyMem d r.id = false := by
        cases hkb : keyMem d r.id with
        | false => rfl
        | true => exact absurd hkb hk
      have hset : dictSet d r.id (dictGetD d r.id + 0 * (1 / (60 + (n : ℚ) + 1))) =
          d ++ [(r.id, (0 : ℚ))] := by
        rw [hval, dictGetD_not_mem hkf, dictSet_not_mem hkf]
      have hstep : (rrfBmLoop 0 n (r :: rest) d docs).1 =
          (rrfBmLoop 0 (n + 1) rest (d ++ [(r.id, (0 : ℚ))])
            (docsSetIfAbsent docs r.id r)).1 := by
        rw [rrfBmLoop, hset]
      have hdnd2 : ((d ++ [(r.id, (0 : ℚ))]).map (fun p => p.1)).Nodup := by
        rw [List.map_append]
        refine List.nodup_append.mpr ⟨hdnd, by simp, ?_⟩
        intro x hx hx2
        simp only [List.map_cons, List.map_nil, List.mem_singleton] at hx2
        rcases List.mem_map.mp hx with ⟨p, hp, he⟩
        rw [hx2] at he
        exact keyMem_false_of_mem hkf hp he
      rw [hstep, ih (n + 1) _ _ hdnd2 hndrest]
      rw [List.filter_cons_of_pos (by simp [hkf])]
      rw [List.filter_congr (l := rest) (q := fun r2 => !keyMem d r2.id) ?_]
      · simp [List.append_assoc]
      · intro x hx
        rw [keyMem_append, keyMem_singleton]
        have : (r.id == x.id) = false := by
          simp only [beq_eq_false_iff_ne, ne_eq]
          intro he
          exact hrid (by rw [he]; exact List.mem_map_of_mem _ hx)
        rw [this]
        simp

theorem mem_dictSet {d : List (String × ℚ)} {k : String} {v : ℚ}
    {p : String × ℚ} (h : p ∈ dictSet d k v) : p ∈ d ∨ p.2 = v := by
  rw [dictSet] at h
  split at h
  · rcases List.mem_map.mp h with ⟨q, hq, heq⟩
    by_cases hk2 : q.1 == k
    · rw [if_pos hk2] at heq
      right
      rw [← heq]
    · rw [if_neg hk2] at heq
      left
      rw [← heq]
      exact hq
  · rcases List.mem_append.mp h with h | h
    · exact Or.inl h
    · right
      rw [List.mem_singleton.mp h]

theorem dictGetD_nonneg {d : List (String × ℚ)} {k : String}
    (h : ∀ p ∈ d, 0 ≤ p.2) : 0 ≤ dictGetD d k := by
  rw [dictGetD]
  cases hf : d.find? (fun p => p.1 == k) with
  | none => exact le_refl 0
  | some q => exact h q (List.mem_of_find?_eq_some hf)

theorem rrfBmLoop_nonneg {bw : ℚ} (hbw : 0 ≤ bw) :
    ∀ (bm : List SearchResult) (n : Nat) (d : List (String × ℚ))
      (docs : List (String × SearchResult)),
      (∀ p ∈ d, 0 ≤ p.2) → ∀ p ∈ (rrfBmLoop bw n bm d docs).1, 0 ≤ p.2 := by
  intro bm
  induction bm with
  | nil =>
    intro n d docs hpos p hp
    exact hpos p hp
  | cons r rest ih =>
    intro n d docs hpos p hp
    rw [rrfBmLoop] at hp
    refine ih (n + 1) _ _ ?_ p hp
    intro q hq
    rcases mem_dictSet hq with hq2 | hq2
    · exact hpos q hq2
    · rw [hq2]
      have h1 : (0 : ℚ) ≤ 1 / (60 + (n : ℚ) + 1) := by positivity
      have h2 : (0 : ℚ) ≤ bw * (1 / (60 + (n : ℚ) + 1)) := mul_nonneg hbw h1
      have h3 := dictGetD_nonneg (k := r.id) hpos
      linarith

theorem rrfBmLoop_pos_dict {bw : ℚ} (hbw : 0 < bw) :
    ∀ (bm : List SearchResult) (n : Nat) (d : List (String × ℚ))
      (docs : List (String × SearchResult)),
      (d.map (fun p => p.1)).Nodup →
      (bm.map (fun r => r.id)).Nodup →
      (∀ p ∈ d, idMem bm p.1 = true → p.2 = 0) →
      (∀ p ∈ d, 0 ≤ p.2) →
      List.Perm ((rrfBmLoop bw n bm d docs).1.filter (fun p => decide (0 < p.2)))
        (d.filter (fun p => decide (0 < p.2)) ++ legEntries bw n bm) ∧
      (rrfBmLoop bw n bm d docs).1.filter (fun p => !decide (0 < p.2)) =
        d.filter (fun p => !decide (0 < p.2) && !idMem bm p.1) := by
  intro bm
  induction bm with
  | nil =>
    intro n d docs _ _ _ _
    constructor
    · simp [rrfBmLoop, legEntries]
    · rw [show (rrfBmLoop bw n [] d docs).1 = d from rfl]
      refine (List.filter_congr ?_).symm
      intro p _
      simp [idMem]
  | cons r rest ih =>
    intro n d docs hdnd hnd hzero hpos
    have hndrest : (rest.map (fun r => r.id)).Nodup := (List.nodup_cons.mp hnd).2
    have hrid : r.id ∉ rest.map (fun r => r.id) := (List.nodup_cons.mp hnd).1
    have hridrest : idMem rest r.id = false := by
      rw [idMem, List.any_eq_false]
      intro x hx
      simp only [beq_iff_eq]
      intro he
      exact hrid (by rw [← he]; exact List.mem_map_of_mem _ hx)
    have hwpos : (0 : ℚ) < bw * (1 / (60 + (n : ℚ) + 1)) :=
      mul_pos hbw (by positivity)
    have hwq : bw * (1 / (60 + (n : ℚ) + 1)) = bw * wq n := by rw [wq]
    have hwposq : (0 : ℚ) < bw * wq n := by rw [← hwq]; exact hwpos
    by_cases hk : keyMem d r.id = true
    · rcases keyMem_decomp_nodup hdnd hk with ⟨d1, v0, d2, hd, hm1, hm2⟩
      have hv0 : v0 = 0 := by
        refine hzero (r.id, v0) (by rw [hd]; simp) ?_
        rw [idMem]
        simp
      have hget : dictGetD d r.id = 0 := by
        rw [hd, dictGetD_decomp hm1, hv0]
      have hset : dictSet d r.id (dictGetD d r.id + bw * (1 / (60 + (n : ℚ) + 1))) =
          d1 ++ (r.id, bw * wq n) :: d2 := by
        rw [hget, zero_add, hwq, hd]
        exact dictSet_decomp hm1 hm2
      have hstep : rrfBmLoop bw n (r :: rest) d docs =
          rrfBmLoop bw (n + 1) rest (d1 ++ (r.id, bw * wq n) :: d2)
            (docsSetIfAbsent docs r.id r) := by
        rw [rrfBmLoop, hset]
      have hdnd2 : ((d1 ++ (r.id, bw * wq n) :: d2).map (fun p => p.1)).Nodup := by
        have : (d1 ++ (r.id, bw * wq n) :: d2).map (fun p => p.1) =
            d.map (fun p => p.1) := by
          rw [hd]
          simp
        rw [this]
        exact hdnd
      have hzero2 : ∀ p ∈ d1 ++ (r.id, bw * wq n) :: d2,
          idMem rest p.1 = true → p.2 = 0 := by
        intro p hp hmem
        rcases List.mem_append.mp hp with hp1 | hp1
        · refine hzero p (by rw [hd]; exact List.mem_append.mpr (Or.inl hp1)) ?_
          rw [idMem] at hmem ⊢
          simp only [List.any_cons]
          rw [hmem]
          simp
        · rcases List.mem_cons.mp hp1 with hp2 | hp2
          · exfalso
            rw [hp2] at hmem
            exact absurd hmem (by simp [hridrest])
          · refine hzero p (by rw [hd]; exact List.mem_append.mpr (Or.inr (List.mem_cons.mpr (Or.inr hp2)))) ?_
            rw [idMem] at hmem ⊢
            simp only [List.any_cons]
            rw [hmem]
            simp
      have hpos2 : ∀ p ∈ d1 ++ (r.id, bw * wq n) :: d2, 0 ≤ p.2 := by
        intro p hp
        rcases List.mem_append.mp hp with hp1 | hp1
        · exact hpos p (by rw [hd]; exact List.mem_append.mpr (Or.inl hp1))
        · rcases List.mem_cons.mp hp1 with hp2 | hp2
          · rw [hp2]
            exact hwposq.le
          · exact hpos p (by rw [hd]; exact List.mem_append.mpr (Or.inr (List.mem_cons.mpr (Or.inr hp2))))
      rcases ih (n + 1) (d1 ++ (r.id, bw * wq n) :: d2) (docsSetIfAbsent docs r.id r)
        hdnd2 hndrest hzero2 hpos2 with ⟨hP, hZ⟩
      rw [hstep]
      have hd1ne : ∀ x ∈ d1, x.1 ≠ r.id := fun x hx => keyMem_false_of_mem hm1 hx
      have hd2ne : ∀ x ∈ d2, x.1 ≠ r.id := fun x hx => keyMem_false_of_mem hm2 hx
      constructor
      · refine hP.trans ?_
        have he1 : (d1 ++ (r.id, bw * wq n) :: d2).filter (fun p => decide (0 < p.2)) =
            d1.filter (fun p => decide (0 < p.2)) ++ (r.id, bw * wq n) ::
              d2.filter (fun p => decide (0 < p.2)) := by
          rw [List.filter_append, List.filter_cons_of_pos (by simp [hwposq])]
        have he2 : d.filter (fun p => decide (0 < p.2)) =
            d1.filter (fun p => decide (0 < p.2)) ++
              d2.filter (fun p => decide (0 < p.2)) := by
          rw [hd, List.filter_append, List.filter_cons_of_neg (by simp [hv0])]
        rw [he1, he2, legEntries]
        have h3 : (d1.filter (fun p => decide (0 < p.2)) ++ (r.id, bw * wq n) ::
            d2.filter (fun p => decide (0 < p.2))) ++ legEntries bw (n + 1) rest =
            d1.filter (fun p => decide (0 < p.2)) ++ (r.id, bw * wq n) ::
            (d2.filter (fun p => decide (0 < p.2)) ++ legEntries bw (n + 1) rest) := by
          simp [List.append_assoc]
        have h4 : (d1.filter (fun p => decide (0 < p.2)) ++
            d2.filter (fun p => decide (0 < p.2))) ++ (r.id, bw * wq n) ::
            legEntries bw (n + 1) rest =
            d1.filter (fun p => decide (0 < p.2)) ++
            (d2.filter (fun p => decide (0 < p.2)) ++ (r.id, bw * wq n) ::
              legEntries bw (n + 1) rest) := by
          simp [List.append_assoc]
        rw [h3, h4]
        exact List.Perm.append_left _ List.perm_middle.symm
      · rw [hZ]
        have hq1 : (d1 ++ (r.id, bw * wq n) :: d2).filter
            (fun p => !decide (0 < p.2) && !idMem rest p.1) =
            d1.filter (fun p => !decide (0 < p.2) && !idMem rest p.1) ++
              d2.filter (fun p => !decide (0 < p.2) && !idMem rest p.1) := by
          rw [List.filter_append, List.filter_cons_of_neg (by simp [hwposq])]
        have hq2 : d.filter (fun p => !decide (0 < p.2) && !idMem (r :: rest) p.1) =
            d1.filter (fun p => !decide (0 < p.2) && !idMem (r :: rest) p.1) ++
              d2.filter (fun p => !decide (0 < p.2) && !idMem (r :: rest) p.1) := by
          rw [hd, List.filter_append, List.filter_cons_of_neg]
          simp [idMem]
        rw [hq1, hq2]
        have hcongr : ∀ (dd : List (String × ℚ)), (∀ x ∈ dd, x.1 ≠ r.id) →
            dd.filter (fun p => !decide (0 < p.2) && !idMem rest p.1) =
            dd.filter (fun p => !decide (0 < p.2) && !idMem (r :: rest) p.1) := by
          intro dd hne
          refine List.filter_congr ?_
          intro x hx
          have : idMem (r :: rest) x.1 = idMem rest x.1 := by
            rw [idMem, idMem, List.any_cons]
            have : (r.id == x.1) = false := by
              simp only [beq_eq_false_iff_ne, ne_eq]
              intro he
              exact hne x hx he.symm
            rw [this]
            simp
          rw [this]
        rw [hcongr d1 hd1ne, hcongr d2 hd2ne]
    · have hkf : keyMem d r.id = false := by
        cases hkb : keyMem d r.id with
        | false => rfl
        | true => exact absurd hkb hk
      have hset : dictSet d r.id (dictGetD d r.id + bw * (1 / (60 + (n : ℚ) + 1))) =
          d ++ [(r.id, bw * wq n)] := by
        rw [dictGetD_not_mem hkf, zero_add, hwq, dictSet_not_mem hkf]
      have hstep : rrfBmLoop bw n (r :: rest) d docs =
          rrfBmLoop bw (n + 1) rest (d ++ [(r.id, bw * wq n)])
            (docsSetIfAbsent docs r.id r) := by
        rw [rrfBmLoop, hset]
      have hdnd2 : ((d ++ [(r.id, bw * wq n)]).map (fun p => p.1)).Nodup := by
        rw [List.map_append]
        refine List.nodup_append.mpr ⟨hdnd, by simp, ?_⟩
        intro x hx hx2
        simp only [List.map_cons, List.map_nil, List.mem_singleton] at hx2
        rcases List.mem_map.mp hx with ⟨p, hp, he⟩
        rw [hx2] at he
        exact keyMem_false_of_mem hkf hp he
      have hzero2 : ∀ p ∈ d ++ [(r.id, bw * wq n)],
          idMem rest p.1 = true → p.2 = 0 := by
        intro p hp hmem
        rcases List.mem_append.mp hp with hp1 | hp1
        · refine hzero p hp1 ?_
          rw [idMem] at hmem ⊢
          simp only [List.any_cons]
          rw [hmem]
          simp
        · exfalso
          rw [List.mem_singleton.mp hp1] at hmem
          exact absurd hmem (by simp [hridrest])
      have hpos2 : ∀ p ∈ d ++ [(r.id, bw * wq n)], 0 ≤ p.2 := by
        intro p hp
        rcases List.mem_append.mp hp with hp1 | hp1
        · exact hpos p hp1
        · rw [List.mem_singleton.mp hp1]
          exact hwposq.le
      rcases ih (n + 1) (d ++ [(r.id, bw * wq n)]) (docsSetIfAbsent docs r.id r)
        hdnd2 hndrest hzero2 hpos2 with ⟨hP, hZ⟩
      rw [hstep]
      have hdne : ∀ x ∈ d, x.1 ≠ r.id := fun x hx => keyMem_false_of_mem hkf hx
      constructor
      · refine hP.trans ?_
        have he1 : (d ++ [(r.id, bw * wq n)]).filter (fun p => decide (0 < p.2)) =
            d.filter (fun p => decide (0 < p.2)) ++ [(r.id, bw * wq n)] := by
          rw [List.filter_append, List.filter_cons_of_pos (by simp [hwposq])]
          rfl
        rw [he1, legEntries, List.append_assoc]
        rfl
      · rw [hZ]
        have hq1 : (d ++ [(r.id, bw * wq n)]).filter
            (fun p => !decide (0 < p.2) && !idMem rest p.1) =
            d.filter (fun p => !decide (0 < p.2) && !idMem rest p.1) := by
          rw [List.filter_append, List.filter_cons_of_neg (by simp [hwposq])]
          simp
        rw [hq1]
        refine List.filter_congr ?_
        intro x hx
        have : idMem (r :: rest) x.1 = idMem rest x.1 := by
          rw [idMem, idMem, List.any_cons]
          have : (r.id == x.1) = false := by
            simp only [beq_eq_false_iff_ne, ne_eq]
            intro he
            exact hdne x hx he.symm
          rw [this]
          simp
        rw [this]

/-! Splitting a stable descending sort into its positive part and its
zero tail. -/

theorem orderedInsert_append_le {x : String × ℚ} {l2 : List (String × ℚ)}
    (h : ∀ y ∈ l2, y.2 ≤ x.2) :
    ∀ l1, List.orderedInsert (descBy (fun p => p.2)) x (l1 ++ l2) =
      List.orderedInsert (descBy (fun p => p.2)) x l1 ++ l2 := by
  intro l1
  induction l1 with
  | nil =>
    cases l2 with
    | nil => rfl
    | cons y ys =>
      have hc : descBy (fun p => p.2) x y := h y (List.mem_cons_self y ys)
      rw [List.nil_append,
        show List.orderedInsert (descBy (fun p => p.2)) x (y :: ys) =
          if descBy (fun p => p.2) x y then x :: y :: ys
          else y :: List.orderedInsert (descBy (fun p => p.2)) x ys from rfl,
        if_pos hc]
      rfl
  | cons a as ih =>
    rw [List.cons_append, List.orderedInsert, List.orderedInsert]
    by_cases hd : descBy (fun p => p.2) x a
    · rw [if_pos hd, if_pos hd]
      rfl
    · rw [if_neg hd, if_neg hd, ih]
      rfl

theorem orderedInsert_append_gt {x : String × ℚ} {l2 : List (String × ℚ)} :
    ∀ l1, (∀ y ∈ l1, x.2 < y.2) →
      List.orderedInsert (descBy (fun p => p.2)) x (l1 ++ l2) =
      l1 ++ List.orderedInsert (descBy (fun p => p.2)) x l2 := by
  intro l1
  induction l1 with
  | nil => intro _; rfl
  | cons a as ih =>
    intro h
    have hna : ¬ descBy (fun p => p.2) x a :=
      not_le.mpr (h a (List.mem_cons_self a as))
    rw [List.cons_append, List.orderedInsert, if_neg hna,
      ih (fun y hy => h y (List.mem_cons.mpr (Or.inr hy)))]
    rfl

theorem sortDescBy_pos_zero_split :
    ∀ (l : List (String × ℚ)), (∀ p ∈ l, 0 ≤ p.2) →
      sortDescBy (fun p => p.2) l =
        sortDescBy (fun p => p.2) (l.filter (fun p => decide (0 < p.2))) ++
        l.filter (fun p => !decide (0 < p.2)) := by
  intro l
  induction l with
  | nil => intro _; rfl
  | cons x xs ih =>
    intro h0
    have h0xs : ∀ p ∈ xs, 0 ≤ p.2 := fun p hp => h0 p (List.mem_cons.mpr (Or.inr hp))
    have hstep : sortDescBy (fun p => p.2) (x :: xs) =
        List.orderedInsert (descBy (fun p => p.2)) x (sortDescBy (fun p => p.2) xs) := rfl
    by_cases hx : 0 < x.2
    · rw [List.filter_cons_of_pos (by simp [hx]), List.filter_cons_of_neg (by simp [hx]),
        hstep, ih h0xs, orderedInsert_append_le ?hle]
      · rfl
      case hle =>
        intro y hy
        have := (List.mem_filter.mp hy).2
        have hy0 : ¬ (0 : ℚ) < y.2 := by simpa using this
        exact le_trans (not_lt.mp hy0) hx.le
    · have hx0 : x.2 = 0 := le_antisymm (not_lt.mp hx) (h0 x (List.mem_cons_self x xs))
      rw [List.filter_cons_of_neg (by simp [hx]), List.filter_cons_of_pos (by simp [hx]),
        hstep, ih h0xs, orderedInsert_append_gt _ ?hgt]
      · congr 1
        cases hz : xs.filter (fun p => !decide (0 < p.2)) with
        | nil => rfl
        | cons z zs =>
          have hzmem : z ∈ xs.filter (fun p => !decide (0 < p.2)) := by
            rw [hz]
            exact List.mem_cons_self z zs
          have hz0 : ¬ (0 : ℚ) < z.2 := by
            simpa using (List.mem_filter.mp hzmem).2
          rw [List.orderedInsert, if_pos ?hpz]
          case hpz =>
            show z.2 ≤ x.2
            rw [hx0]
            exact not_lt.mp hz0
      case hgt =>
        intro y hy
        have hy2 : y ∈ xs.filter (fun p => decide (0 < p.2)) := mem_sortDescBy.mp hy
        have : (0 : ℚ) < y.2 := by simpa using (List.mem_filter.mp hy2).2
        rw [hx0]
        exact this

/-- Two key-value lists that are permutations of each other, both sorted by
descending value, with duplicate-free values, are equal. -/
theorem eq_of_perm_sorted_values_nodup :
    ∀ (l1 l2 : List (String × ℚ)), List.Perm l1 l2 →
      List.Sorted (descBy (fun p => p.2)) l1 →
      List.Sorted (descBy (fun p => p.2)) l2 →
      (l2.map (fun p => p.2)).Nodup → l1 = l2 := by
  intro l1
  induction l1 with
  | nil =>
    intro l2 hp _ _ _
    exact (List.Perm.eq_nil hp.symm).symm
  | cons a t1 ih =>
    intro l2 hp hs1 hs2 hnd
    cases l2 with
    | nil => exact absurd hp.eq_nil (by simp)
    | cons b t2 =>
      have hnd' : b.2 ∉ t2.map (fun p => p.2) ∧ (t2.map (fun p => p.2)).Nodup := by
        rw [List.map_cons] at hnd
        exact List.nodup_cons.mp hnd
      have hab : a = b := by
        by_contra hne
        have ha2 : a ∈ b :: t2 := hp.mem_iff.mp (List.mem_cons_self a t1)
        have hb1 : b ∈ a :: t1 := hp.mem_iff.mpr (List.mem_cons_self b t2)
        have ha : a ∈ t2 := by
          rcases List.mem_cons.mp ha2 with h | h
          · exact absurd h hne
          · exact h
        have hb : b ∈ t1 := by
          rcases List.mem_cons.mp hb1 with h | h
          · exact absurd h.symm hne
          · exact h
        have h1 : a.2 ≤ b.2 := (List.pairwise_cons.mp hs2).1 a ha
        have h2 : b.2 ≤ a.2 := (List.pairwise_cons.mp hs1).1 b hb
        have heq : a.2 = b.2 := le_antisymm h1 h2
        have hmem : b.2 ∈ t2.map (fun p => p.2) := by
          rw [← heq]
          exact List.mem_map_of_mem _ ha
        exact hnd'.1 hmem
      subst hab
      have hp2 : List.Perm t1 t2 := List.Perm.cons_inv hp
      have ht : t1 = t2 :=
        ih t2 hp2 (List.pairwise_cons.mp hs1).2 (List.pairwise_cons.mp hs2).2 hnd'.2
      rw [ht]

/-! Glue lemmas connecting dict keys, doc-map keys and leg ids. -/

theorem keyMem_map_id {β : Type} (f : SearchResult → String × β)
    (hf : ∀ r, (f r).1 = r.id) :
    ∀ (l : List SearchResult) (k : String), keyMem (l.map f) k = idMem l k := by
  intro l
  induction l with
  | nil => intro k; rfl
  | cons r rest ih =>
    intro k
    have h1 := ih k
    simp only [keyMem, idMem] at h1 ⊢
    simp [List.any_cons, hf r, h1]

theorem keyMem_legEntries (w : ℚ) :
    ∀ (l : List SearchResult) (n : Nat) (k : String),
      keyMem (legEntries w n l) k = idMem l k := by
  intro l
  induction l with
  | nil => intro n k; rfl
  | cons r rest ih =>
    intro n k
    have h1 := ih (n + 1) k
    simp only [keyMem, idMem] at h1 ⊢
    simp [legEntries, List.any_cons, h1]

theorem idMem_of_mem {l : List SearchResult} {r : SearchResult} (h : r ∈ l) :
    idMem l r.id = true := by
  rw [idMem]
  exact List.any_eq_true.mpr ⟨r, h, by simp⟩

theorem idMem_of_mem_ids {l : List SearchResult} {k : String}
    (h : k ∈ l.map (fun r => r.id)) : idMem l k = true := by
  rcases List.mem_map.mp h with ⟨r, hr, he⟩
  rw [← he]
  exact idMem_of_mem hr

theorem sorted_descBy_of_zero :
    ∀ (l : List (String × ℚ)), (∀ p ∈ l, p.2 = 0) →
      List.Sorted (descBy (fun p => p.2)) l := by
  intro l
  induction l with
  | nil => intro _; exact List.sorted_nil
  | cons x xs ih =>
    intro h
    refine List.pairwise_cons.mpr
      ⟨?_, ih (fun p hp => h p (List.mem_cons.mpr (Or.inr hp)))⟩
    intro b hb
    show b.2 ≤ x.2
    rw [h b (List.mem_cons.mpr (Or.inr hb)), h x (List.mem_cons_self x xs)]

theorem filter_pos_of_zero :
    ∀ (l : List (String × ℚ)), (∀ p ∈ l, p.2 = 0) →
      l.filter (fun p => decide (0 < p.2)) = [] := by
  intro l
  induction l with
  | nil => intro _; rfl
  | cons x xs ih =>
    intro h
    rw [List.filter_cons_of_neg (by simp [h x (List.mem_cons_self x xs)]),
      ih (fun p hp => h p (List.mem_cons.mpr (Or.inr hp)))]

theorem mapFst_filter_legEntries (w : ℚ) (q : String → Bool) :
    ∀ (l : List SearchResult) (n : Nat),
      ((legEntries w n l).filter (fun p => q p.1)).map (fun p => p.1) =
        (l.filter (fun r => q r.id)).map (fun r => r.id) := by
  intro l
  induction l with
  | nil => intro n; rfl
  | cons r rest ih =>
    intro n
    rw [legEntries]
    cases hq : q r.id with
    | true =>
      rw [List.filter_cons_of_pos (by simp [hq]),
        List.filter_cons_of_pos (by simp [hq]),
        List.map_cons, List.map_cons, ih (n + 1)]
    | false =>
      rw [List.filter_cons_of_neg (by simp [hq]),
        List.filter_cons_of_neg (by simp [hq]), ih (n + 1)]

theorem mapFst_pairZero (l : List SearchResult) :
    (l.map (fun r => (r.id, (0 : ℚ)))).map (fun p => p.1) =
      l.map (fun r => r.id) := by
  induction l with
  | nil => rfl
  | cons r rest ih => simp only [List.map_cons, ih]

theorem pairF_consistent (l : List SearchResult) :
    ∀ q ∈ l.map (fun r => (r.id, r)), q.2.id = q.1 := by
  intro q hq
  rcases List.mem_map.mp hq with ⟨r, _, he⟩
  rw [← he]

/-- The final ranking loop emits exactly the ids of the sorted dict entries,
in dict order, whenever every entry's id has a record in `all_docs`. -/
theorem rrfRankLoop_map_id :
    ∀ (entries : List (String × ℚ)) (n : Nat)
      (docs : List (String × SearchResult)),
      (∀ p ∈ entries, keyMem docs p.1 = true) →
      (∀ q ∈ docs, q.2.id = q.1) →
      (rrfRankLoop n entries docs).map (fun r => r.id) =
        entries.map (fun p => p.1) := by
  intro entries
  induction entries with
  | nil => intro n docs _ _; rfl
  | cons e rest ih =>
    intro n docs hk hc
    rcases e with ⟨k, sc⟩
    have hkk : keyMem docs k = true := hk (k, sc) (List.mem_cons_self _ _)
    have hfind : ∃ q, docs.find? (fun p => p.1 == k) = some q := by
      rcases keyMem_true_iff.mp hkk with ⟨p, hp, hpk⟩
      cases hf : docs.find? (fun p => p.1 == k) with
      | some q => exact ⟨q, rfl⟩
      | none =>
        rw [List.find?_eq_none] at hf
        exact absurd (hf p hp) (by simp [hpk])
    rcases hfind with ⟨q, hq⟩
    have hqk : q.1 = k := by
      have := List.find?_some hq
      simpa using this
    have hqmem : q ∈ docs := List.mem_of_find?_eq_some hq
    have hhead : ({ q.2 with rrfScore := sc, rtype := "hybrid", rank := n + 1 } :
        SearchResult).id = k := by
      rw [show ({ q.2 with rrfScore := sc, rtype := "hybrid", rank := n + 1 } :
          SearchResult).id = q.2.id from rfl, hc q hqmem, hqk]
    simp only [rrfRankLoop, hq, List.map_cons]
    rw [ih (n + 1) docs (fun p hp => hk p (List.mem_cons.mpr (Or.inr hp))) hc, hhead]

/-- C6 (amended): with `bm25_weight = 0` the fused list starts with the
vector-leg order but then CONTINUES with the BM25-only documents at
`rrf_score 0`; symmetrically for `vector_weight = 0`. The claimed equality
of orders holds only for the shared prefix. -/
theorem rrf_zero_weight_amended (vec bm : List SearchResult)
    (hv : (vec.map (fun r => r.id)).Nodup)
    (hb : (bm.map (fun r => r.id)).Nodup)
    {vw bw : ℚ} (hvw : 0 < vw) (hbw : 0 < bw) :
    (rrf_fusion vec bm vw 0).map (fun r => r.id) =
      vec.map (fun r => r.id) ++
        (bm.filter (fun r => !idMem vec r.id)).map (fun r => r.id) ∧
    (rrf_fusion vec bm 0 bw).map (fun r => r.id) =
      bm.map (fun r => r.id) ++
        (vec.filter (fun r => !idMem bm r.id)).map (fun r => r.id) := by
  constructor
  · have hvc := rrfVecLoop_char vw vec 0 [] [] hv (fun r _ => rfl) (fun r _ => rfl)
    have hv1 : (rrfVecLoop vw 0 vec [] []).1 = legEntries vw 0 vec := by
      rw [hvc.1, List.nil_append]
    have hv2 : (rrfVecLoop vw 0 vec [] []).2 = vec.map (fun r => (r.id, r)) := by
      rw [hvc.2, List.nil_append]
    have hkeys : ((legEntries vw 0 vec).map (fun p => p.1)).Nodup := by
      rw [legEntries_map_fst]
      exact hv
    have hfc : bm.filter (fun r => !keyMem (legEntries vw 0 vec) r.id) =
        bm.filter (fun r => !idMem vec r.id) :=
      List.filter_congr (fun r _ => by rw [keyMem_legEntries])
    have hfd : bm.filter (fun r => !keyMem (vec.map (fun r => (r.id, r))) r.id) =
        bm.filter (fun r => !idMem vec r.id) :=
      List.filter_congr (fun r _ => by
        rw [keyMem_map_id (fun r => (r.id, r)) (fun _ => rfl)])
    have hdict : (rrfBmLoop 0 0 bm (legEntries vw 0 vec)
        (vec.map (fun r => (r.id, r)))).1 =
        legEntries vw 0 vec ++
          (bm.filter (fun r => !idMem vec r.id)).map (fun r => (r.id, (0 : ℚ))) := by
      rw [rrfBmLoop_zero_dict bm 0 _ _ hkeys hb, hfc]
    have hdocs : (rrfBmLoop 0 0 bm (legEntries vw 0 vec)
        (vec.map (fun r => (r.id, r)))).2 =
        vec.map (fun r => (r.id, r)) ++
          (bm.filter (fun r => !idMem vec r.id)).map (fun r => (r.id, r)) := by
      rw [rrfBmLoop_docs_char 0 bm 0 _ _ hb, hfd]
    have hsorted : List.Sorted (descBy (fun p => p.2))
        (legEntries vw 0 vec ++
          (bm.filter (fun r => !idMem vec r.id)).map (fun r => (r.id, (0 : ℚ)))) := by
      rw [List.Sorted, List.pairwise_append]
      refine ⟨legEntries_sorted hvw vec 0, sorted_descBy_of_zero _ ?_, ?_⟩
      · intro p hp
        rcases List.mem_map.mp hp with ⟨r, _, he⟩
        rw [← he]
      · intro a ha b hb2
        have ha2 : 0 < a.2 := legEntries_pos hvw vec 0 a ha
        have hb0 : b.2 = 0 := by
          rcases List.mem_map.mp hb2 with ⟨r, _, he⟩
          rw [← he]
        show b.2 ≤ a.2
        rw [hb0]
        exact ha2.le
    have hcons : ∀ q ∈ vec.map (fun r => (r.id, r)) ++
        (bm.filter (fun r => !idMem vec r.id)).map (fun r => (r.id, r)),
        q.2.id = q.1 := by
      intro q hq
      rcases List.mem_append.mp hq with h | h
      · exact pairF_consistent vec q h
      · exact pairF_consistent _ q h
    have hcov : ∀ p ∈ legEntries vw 0 vec ++
        (bm.filter (fun r => !idMem vec r.id)).map (fun r => (r.id, (0 : ℚ))),
        keyMem (vec.map (fun r => (r.id, r)) ++
          (bm.filter (fun r => !idMem vec r.id)).map (fun r => (r.id, r)))
          p.1 = true := by
      intro p hp
      rw [keyMem_append, keyMem_map_id (fun r => (r.id, r)) (fun _ => rfl),
        keyMem_map_id (fun r => (r.id, r)) (fun _ => rfl)]
      rcases List.mem_append.mp hp with h | h
      · have hpid : p.1 ∈ vec.map (fun r => r.id) := by
          rw [← legEntries_map_fst vw vec 0]
          exact List.mem_map_of_mem _ h
        rw [idMem_of_mem_ids hpid, Bool.true_or]
      · rcases List.mem_map.mp h with ⟨r, hr, he⟩
        have hfm : idMem (bm.filter (fun r => !idMem vec r.id)) p.1 = true := by
          rw [← he]
          exact idMem_of_mem hr
        rw [hfm, Bool.or_true]
    have hrank := rrfRankLoop_map_id
      (legEntries vw 0 vec ++
        (bm.filter (fun r => !idMem vec r.id)).map (fun r => (r.id, (0 : ℚ)))) 0
      (vec.map (fun r => (r.id, r)) ++
        (bm.filter (fun r => !idMem vec r.id)).map (fun r => (r.id, r)))
      hcov hcons
    simp only [rrf_fusion]
    rw [hv1, hv2, hdict, hdocs, sortDescBy_of_sorted hsorted, hrank,
      List.map_append, legEntries_map_fst, mapFst_pairZero]
  · have hvc := rrfVecLoop_char 0 vec 0 [] [] hv (fun r _ => rfl) (fun r _ => rfl)
    have hv1 : (rrfVecLoop 0 0 vec [] []).1 = legEntries 0 0 vec := by
      rw [hvc.1, List.nil_append]
    have hv2 : (rrfVecLoop 0 0 vec [] []).2 = vec.map (fun r => (r.id, r)) := by
      rw [hvc.2, List.nil_append]
    have hkeys : ((legEntries 0 0 vec).map (fun p => p.1)).Nodup := by
      rw [legEntries_map_fst]
      exact hv
    have hzero : ∀ p ∈ legEntries 0 0 vec, p.2 = 0 :=
      fun p hp => legEntries_zero vec 0 p hp
    have hpd := rrfBmLoop_pos_dict hbw bm 0 (legEntries 0 0 vec)
      (vec.map (fun r => (r.id, r))) hkeys hb (fun p hp _ => hzero p hp)
      (fun p hp => le_of_eq (hzero p hp).symm)
    have hnil : (legEntries 0 0 vec).filter (fun p => decide (0 < p.2)) = [] :=
      filter_pos_of_zero _ hzero
    have hperm : List.Perm ((rrfBmLoop bw 0 bm (legEntries 0 0 vec)
        (vec.map (fun r => (r.id, r)))).1.filter (fun p => decide (0 < p.2)))
        (legEntries bw 0 bm) := by
      have h1 := hpd.1
      rw [hnil, List.nil_append] at h1
      exact h1
    have hzd : (rrfBmLoop bw 0 bm (legEntries 0 0 vec)
        (vec.map (fun r => (r.id, r)))).1.filter (fun p => !decide (0 < p.2)) =
        (legEntries 0 0 vec).filter (fun p => !idMem bm p.1) := by
      rw [hpd.2]
      exact List.filter_congr (fun p hp => by
        rw [hzero p hp]
        simp)
    have hnn : ∀ p ∈ (rrfBmLoop bw 0 bm (legEntries 0 0 vec)
        (vec.map (fun r => (r.id, r)))).1, 0 ≤ p.2 :=
      rrfBmLoop_nonneg hbw.le bm 0 _ _ (fun p hp => le_of_eq (hzero p hp).symm)
    have hsplit := sortDescBy_pos_zero_split _ hnn
    have hposeq : sortDescBy (fun p => p.2)
        ((rrfBmLoop bw 0 bm (legEntries 0 0 vec)
          (vec.map (fun r => (r.id, r)))).1.filter (fun p => decide (0 < p.2))) =
        legEntries bw 0 bm := by
      refine eq_of_perm_sorted_values_nodup _ _ ?_ ?_ ?_ ?_
      · exact (sortDescBy_perm _ _).trans hperm
      · exact sortDescBy_sorted _ _
      · exact legEntries_sorted hbw bm 0
      · exact legEntries_values_nodup hbw bm 0
    have hsort : sortDescBy (fun p => p.2)
        (rrfBmLoop bw 0 bm (legEntries 0 0 vec)
          (vec.map (fun r => (r.id, r)))).1 =
        legEntries bw 0 bm ++
          (legEntries 0 0 vec).filter (fun p => !idMem bm p.1) := by
      rw [hsplit, hposeq, hzd]
    have hfd : bm.filter (fun r => !keyMem (vec.map (fun r => (r.id, r))) r.id) =
        bm.filter (fun r => !idMem vec r.id) :=
      List.filter_congr (fun r _ => by
        rw [keyMem_map_id (fun r => (r.id, r)) (fun _ => rfl)])
    have hdocs : (rrfBmLoop bw 0 bm (legEntries 0 0 vec)
        (vec.map (fun r => (r.id, r)))).2 =
        vec.map (fun r => (r.id, r)) ++
          (bm.filter (fun r => !idMem vec r.id)).map (fun r => (r.id, r)) := by
      rw [rrfBmLoop_docs_char bw bm 0 _ _ hb, hfd]
    have hcons : ∀ q ∈ vec.map (fun r => (r.id, r)) ++
        (bm.filter (fun r => !idMem vec r.id)).map (fun r => (r.id, r)),
        q.2.id = q.1 := by
      intro q hq
      rcases List.mem_append.mp hq with h | h
      · exact pairF_consistent vec q h
      · exact pairF_consistent _ q h
    have hcov : ∀ p ∈ legEntries bw 0 bm ++
        (legEntries 0 0 vec).filter (fun p => !idMem bm p.1),
        keyMem (vec.map (fun r => (r.id, r)) ++
          (bm.filter (fun r => !idMem vec r.id)).map (fun r => (r.id, r)))
          p.1 = true := by
      intro p hp
      rw [keyMem_append, keyMem_map_id (fun r => (r.id, r)) (fun _ => rfl),
        keyMem_map_id (fun r => (r.id, r)) (fun _ => rfl)]
      rcases List.mem_append.mp hp with h | h
      · have hpid : p.1 ∈ bm.map (fun r => r.id) := by
          rw [← legEntries_map_fst bw bm 0]
          exact List.mem_map_of_mem _ h
        rcases List.mem_map.mp hpid with ⟨r, hr, he⟩
        cases hvm : idMem vec p.1 with
        | true => rw [Bool.true_or]
        | false =>
          have hrf : r ∈ bm.filter (fun r => !idMem vec r.id) := by
            refine List.mem_filter.mpr ⟨hr, ?_⟩
            rw [he, hvm]
            rfl
          have hfm : idMem (bm.filter (fun r => !idMem vec r.id)) p.1 = true := by
            rw [← he]
            exact idMem_of_mem hrf
          rw [hfm, Bool.or_true]
      · have hpd1 : p ∈ legEntries 0 0 vec := (List.mem_filter.mp h).1
        have hpid : p.1 ∈ vec.map (fun r => r.id) := by
          rw [← legEntries_map_fst 0 vec 0]
          exact List.mem_map_of_mem _ hpd1
        rw [idMem_of_mem_ids hpid, Bool.true_or]
    have hrank := rrfRankLoop_map_id
      (legEntries bw 0 bm ++
        (legEntries 0 0 vec).filter (fun p => !idMem bm p.1)) 0
      (vec.map (fun r => (r.id, r)) ++
        (bm.filter (fun r => !idMem vec r.id)).map (fun r => (r.id, r)))
      hcov hcons
    simp only [rrf_fusion]
    rw [hv1, hv2, hdocs, hsort, hrank, List.map_append, legEntries_map_fst,
      mapFst_filter_legEntries 0 (fun k => !idMem bm k) vec 0]

/-- A vector-leg result used to exercise `_rrf_fusion` with a zero weight. -/
def c6A : SearchResult := { id := "A", content := "a", metadata := {} }

/-- A BM25-leg result used to exercise `_rrf_fusion` with a zero weight. -/
def c6B : SearchResult := { id := "B", content := "b", metadata := {} }

unseal Rat.add Rat.mul Rat.sub Rat.inv in
/-- C6 counterexample: with `bm25_weight = 0` the fused order does NOT equal
the vector order — a BM25-only document still enters `rrf_scores` with
contribution `0 * 1/(60+rank+1) = 0` and is appended to the fused list, so
fusing vector leg `[A]` with BM25 leg `[B]` at weights `(0.7, 0)` returns
`[A, B]`, not `[A]`. -/
theorem rrf_zero_weight_counterexample :
    (rrf_fusion [c6A] [c6B] (7 / 10) 0).map (fun r => r.id) ≠
      [c6A].map (fun r => r.id) := by
  decide

unseal Rat.add Rat.mul Rat.sub Rat.inv in
/-- C6 witness: the amended statement evaluated at vector leg `[A]` and BM25
leg `[B, A]` with weights `0.7` and `0.3`: with `bm25_weight = 0` the fused
ids are `[A] ++ [B]`, with `vector_weight = 0` they are `[B, A] ++ []`. -/
theorem rrf_zero_weight_amended_witness :
    ([c6A].map (fun r => r.id)).Nodup ∧
    ([c6B, c6A].map (fun r => r.id)).Nodup ∧
    ((rrf_fusion [c6A] [c6B, c6A] (7 / 10) 0).map (fun r => r.id) =
        [c6A].map (fun r => r.id) ++
          (([c6B, c6A].filter (fun r => !idMem [c6A] r.id)).map
            (fun r => r.id)) ∧
      (rrf_fusion [c6A] [c6B, c6A] 0 (3 / 10)).map (fun r => r.id) =
        [c6B, c6A].map (fun r => r.id) ++
          (([c6A].filter (fun r => !idMem [c6B, c6A] r.id)).map
            (fun r => r.id))) :=
  ⟨by decide, by decide,
    rrf_zero_weight_amended [c6A] [c6B, c6A] (by decide) (by decide)
      (by decide) (by decide)⟩

end RagKb
